import Mathlib

/-!
Verification of the CPU scheduling simulator in `main.go`.

The four schedulers (`FCFSSchedule`, `SJFSchedule`, `SJFPrioritySchedule`,
`RRSchedule`) are embedded as pure Lean functions over mathematical integers
(`Int` models Go's `int64`; the exact float sums in the Go code only ever hold
integer values, so they are modelled as `Int`, and the final averages, which
Go computes with float division, are modelled as exact rationals).  The two
preemptive shortest-job loops and the round-robin sweep are modelled as
explicit step functions iterated with fuel; a termination theorem shows the
fuel chosen is sufficient on the inputs where the Go loop terminates.
-/

set_option maxHeartbeats 1000000
set_option maxRecDepth 16384

/-- Go struct `Process` (`main.go`): immutable input record.  All fields are
`int64` in Go, modelled as `Int`. -/
structure Process where
  ProcessID : Int
  ArrivalTime : Int
  BurstDuration : Int
  Priority : Int
deriving Repr, DecidableEq, Inhabited

/-- Go struct `TimeSlice` (`main.go`): a Gantt chart entry. -/
structure TimeSlice where
  PID : Int
  Start : Int
  Stop : Int
deriving Repr, DecidableEq, Inhabited

/-- Go struct `ProcessData` (`main.go`): per-process mutable bookkeeping. -/
structure ProcessData where
  waitingTime : Int
  turnaroundTime : Int
  exit : Int
deriving Repr, DecidableEq, Inhabited

/-- One row of the schedule table (`schedule[i]` in Go holds the printed
strings; we keep the underlying integer values).  The columns follow the Go
table header: ID, Priority, Burst, Arrival, Wait, Turnaround, Exit (the FCFS
scheduler puts the completion time in the last column). -/
structure Row where
  id : Int
  priority : Int
  burst : Int
  arrival : Int
  wait : Int
  turnaround : Int
  exitCol : Int
deriving Repr, DecidableEq, Inhabited

/-- The data a scheduler hands to the reporting sink, plus `processesAfter`,
the contents of the caller's process slice after the call (the Go functions
receive a shared slice; only `RRSchedule` writes to it). -/
structure SchedResult where
  gantt : List TimeSlice
  schedule : List Row
  count : Nat
  aveWait : Rat
  aveTurnaround : Rat
  aveThroughput : Rat
  processesAfter : List Process
deriving Repr, DecidableEq

/-- Indexing into the process slice, mirroring Go's `processes[i]` (the Go
code never indexes out of bounds; the default value is irrelevant). -/
def getP (l : List Process) (i : Nat) : Process := l.getD i default

/-- Indexing into a `ProcessData` slice, mirroring Go's `pd[i]`. -/
def getPD (l : List ProcessData) (i : Nat) : ProcessData := l.getD i default

/-- Index-aware map over a list, used to model Go loops of the form
`for index := range xs` that update `xs[index]` from `index` and the old
value. -/
def mapI (f : Nat → α → α) : Nat → List α → List α
  | _, [] => []
  | i, a :: l => f i a :: mapI f (i + 1) l

/-! ## First-come, first-serve (`FCFSSchedule`, main.go lines 85–143) -/

/-- The loop-carried state of the `for i := range processes` loop inside
`FCFSSchedule`. -/
structure FCFSAcc where
  serviceTime : Int
  totalWait : Int
  totalTurnaround : Int
  lastCompletion : Int
  waitingTime : Int
  schedule : List Row
  gantt : List TimeSlice
deriving Repr, DecidableEq

def FCFSinit : FCFSAcc :=
  { serviceTime := 0, totalWait := 0, totalTurnaround := 0,
    lastCompletion := 0, waitingTime := 0, schedule := [], gantt := [] }

/-- One iteration of the `FCFSSchedule` loop body. -/
def FCFSbody (acc : FCFSAcc) (p : Process) : FCFSAcc :=
  let waitingTime := if 0 < p.ArrivalTime then acc.serviceTime - p.ArrivalTime
                     else acc.waitingTime
  let start := waitingTime + p.ArrivalTime
  let turnaround := p.BurstDuration + waitingTime
  let completion := p.BurstDuration + p.ArrivalTime + waitingTime
  let serviceTime := acc.serviceTime + p.BurstDuration
  { serviceTime := serviceTime
    totalWait := acc.totalWait + waitingTime
    totalTurnaround := acc.totalTurnaround + turnaround
    lastCompletion := completion
    waitingTime := waitingTime
    schedule := acc.schedule ++
      [⟨p.ProcessID, p.Priority, p.BurstDuration, p.ArrivalTime,
        waitingTime, turnaround, completion⟩]
    gantt := acc.gantt ++ [⟨p.ProcessID, start, serviceTime⟩] }

/-- `FCFSSchedule` from main.go as a function from the process list to the
data handed to the output helpers. -/
def FCFSSchedule (processes : List Process) : SchedResult :=
  let acc := processes.foldl FCFSbody FCFSinit
  let count : Nat := processes.length
  { gantt := acc.gantt
    schedule := acc.schedule
    count := count
    aveWait := (acc.totalWait : Rat) / (count : Rat)
    aveTurnaround := (acc.totalTurnaround : Rat) / (count : Rat)
    aveThroughput := (count : Rat) / (acc.lastCompletion : Rat)
    processesAfter := processes }

/-! ## Shortest-job-first (`SJFSchedule`, main.go lines 155–235) and its
priority variant (`SJFPrioritySchedule`, lines 237–317)

The two Go functions are line-for-line identical except that the candidate
scan of `SJFPrioritySchedule` has one extra disjunct (equal remaining bursts
and strictly greater priority).  We embed the shared body once, with a flag
`usePrio` that enables that disjunct: `SJFSchedule` is the instance with
`usePrio = false` and `SJFPrioritySchedule` the instance with
`usePrio = true`. -/

/-- Go helper `noMoreProcesses`: true when every process has a nonzero exit
time. -/
def noMoreProcesses (pd : List ProcessData) : Bool :=
  pd.all fun proc => !(proc.exit == 0)

/-- The loop-carried state of the simulation loop shared by `SJFSchedule`
(variables `temp`, `pd`, `time`, `start`, `current`, `gantt`) and
`SJFPrioritySchedule` (same variables, with `pd` named `tProcess` and
`current` named `inc`). -/
structure SJFState where
  temp : List Process
  pd : List ProcessData
  time : Int
  start : Int
  current : Nat
  gantt : List TimeSlice
deriving Repr, DecidableEq

/-- The first inner loop of the simulation body: accrue waiting time for
arrived, unfinished, non-current processes; decrement the current process's
remaining burst and record its exit time when the burst reaches zero. -/
def sjfTick (s : SJFState) : SJFState :=
  { s with
    temp := mapI (fun i p =>
      if p.ArrivalTime < s.time ∧ i = s.current then
        { p with BurstDuration := p.BurstDuration - 1 }
      else p) 0 s.temp
    pd := mapI (fun i d =>
      if (getP s.temp i).ArrivalTime < s.time then
        if i ≠ s.current ∧ d.exit = 0 then
          { d with waitingTime := d.waitingTime + 1 }
        else if i = s.current ∧ (getP s.temp i).BurstDuration - 1 = 0 then
          { d with exit := s.time }
        else d
      else d) 0 s.pd }

/-- Whether the first inner loop set `swapped` (the current process's
remaining burst was decremented to exactly zero this tick). -/
def sjfFinished (s : SJFState) : Bool :=
  decide (s.current < s.pd.length ∧
    (getP s.temp s.current).ArrivalTime < s.time ∧
    (getP s.temp s.current).BurstDuration - 1 = 0)

/-- The full switch condition of the candidate scan over index `i`,
evaluated on the post-tick state `s`: the index must be unfinished and
arrived, and either have strictly smaller remaining burst than the current
process, or the current process's remaining burst is below 1, or (only in
`SJFPrioritySchedule`) remaining bursts are equal and the candidate's
priority is strictly greater. -/
def sjfCand (usePrio : Bool) (ps : List Process) (s : SJFState) (i : Nat) : Bool :=
  decide ((getPD s.pd i).exit = 0 ∧ (getP ps i).ArrivalTime ≤ s.time) &&
    ((getP s.temp i).BurstDuration < (getP s.temp s.current).BurstDuration ||
     (getP s.temp s.current).BurstDuration < 1 ||
     (usePrio &&
       ((getP s.temp i).BurstDuration == (getP s.temp s.current).BurstDuration &&
        (getP s.temp s.current).Priority < (getP s.temp i).Priority)))

/-- The candidate scan: Go's `for index, proc := range processes` loop that
repeatedly overwrites `new`/`swapped`, so the *last* satisfying index wins
and `new` defaults to 0. -/
def sjfScan (usePrio : Bool) (ps : List Process) (s : SJFState) : Nat × Bool :=
  (List.range ps.length).foldl
    (fun acc i => if sjfCand usePrio ps s i then (i, true) else acc)
    (0, false)

/-- One iteration of the simulation `for !noMoreProcesses(...)` loop. -/
def sjfStep (usePrio : Bool) (ps : List Process) (s : SJFState) : SJFState :=
  let s1 := sjfTick s
  let swapped1 := sjfFinished s
  let (nw, found) := sjfScan usePrio ps s1
  if swapped1 || found then
    { s1 with
      gantt := s1.gantt ++ [⟨(s.current : Int) + 1, s.start, s.time⟩]
      current := nw
      start := s.time
      time := s.time + 1 }
  else { s1 with time := s.time + 1 }

/-- The initial simulation state: `temp` is a copy of the input, all
bookkeeping is zeroed, the clock and slice start are 0 and process 0 is
current. -/
def sjfInit (ps : List Process) : SJFState :=
  { temp := ps
    pd := List.replicate ps.length ⟨0, 0, 0⟩
    time := 0, start := 0, current := 0, gantt := [] }

/-- The simulation loop, with explicit fuel (the Go loop has none; the
termination theorem below shows `sjfFuel` is enough whenever bursts are
positive and arrivals non-negative). -/
def sjfRun (usePrio : Bool) (ps : List Process) : Nat → SJFState → SJFState
  | 0, s => s
  | fuel + 1, s =>
    if noMoreProcesses s.pd then s else sjfRun usePrio ps fuel (sjfStep usePrio ps s)

/-- Fuel sufficient for the simulation loop: (largest arrival) + (sum of the
bursts) + 3. -/
def sjfFuel (ps : List Process) : Nat :=
  (ps.foldl (fun (m : Int) (p : Process) => max m p.ArrivalTime) 0).toNat +
    ps.foldl (fun (a : Nat) (p : Process) => a + p.BurstDuration.toNat) 0 + 3

/-- The table rows and aggregate sums built after the loop (identical code in
`SJFSchedule` and `SJFPrioritySchedule`): row `i` shows the original burst and
arrival, the accrued waiting time, waiting time + original burst as
turnaround, and the recorded exit time. -/
def sjfResult (ps : List Process) (s : SJFState) : SchedResult :=
  let rows := (List.range ps.length).map fun i =>
    (⟨(getP ps i).ProcessID, (getP ps i).Priority, (getP ps i).BurstDuration,
      (getP ps i).ArrivalTime, (getPD s.pd i).waitingTime,
      (getPD s.pd i).waitingTime + (getP ps i).BurstDuration,
      (getPD s.pd i).exit⟩ : Row)
  let waitingTime : Int := (List.range ps.length).foldl
    (fun a i => a + (getPD s.pd i).waitingTime) 0
  let turnAroundTime : Int := (List.range ps.length).foldl
    (fun a i => a + ((getPD s.pd i).waitingTime + (getP ps i).BurstDuration)) 0
  let count : Nat := ps.length
  { gantt := s.gantt
    schedule := rows
    count := count
    aveWait := (waitingTime : Rat) / (count : Rat)
    aveTurnaround := (turnAroundTime : Rat) / (count : Rat)
    aveThroughput := (count : Rat) / ((s.time - 1 : Int) : Rat)
    processesAfter := ps }

/-- `SJFSchedule` from main.go: the shared simulation with the plain
shortest-remaining-burst switch condition. -/
def SJFSchedule (processes : List Process) : SchedResult :=
  sjfResult processes
    (sjfRun false processes (sjfFuel processes) (sjfInit processes))

/-- `SJFPrioritySchedule` from main.go: the shared simulation with the extra
equal-burst/greater-priority switch disjunct enabled. -/
def SJFPrioritySchedule (processes : List Process) : SchedResult :=
  sjfResult processes
    (sjfRun true processes (sjfFuel processes) (sjfInit processes))

/-! ## Round-robin (`RRSchedule`, main.go lines 319–410)

`RRSchedule` first sorts the caller's slice in place by ascending arrival
time (`sort.Slice`, whose order on ties is unspecified; we model it with
insertion sort, which produces an arrival-sorted permutation), then repeats a
linear sweep over the whole array with quantum `val = 2` until every
remaining time is zero. -/

/-- The arrival-time order used by `RRSchedule`'s `sort.Slice` call. -/
def arrivalLE (a b : Process) : Prop := a.ArrivalTime ≤ b.ArrivalTime

instance : DecidableRel arrivalLE := fun a b => Int.decLe a.ArrivalTime b.ArrivalTime

instance : IsTotal Process arrivalLE := ⟨fun a b => Int.le_total a.ArrivalTime b.ArrivalTime⟩

instance : IsTrans Process arrivalLE := ⟨fun _ _ _ h1 h2 => le_trans h1 h2⟩

/-- The in-place `sort.Slice(processes, ...ArrivalTime < ...)` call, modelled
as a sort producing an arrival-ordered permutation (Go's sort is unstable, so
the order of equal arrivals is unspecified there). -/
def rrSort (processes : List Process) : List Process :=
  List.insertionSort arrivalLE processes

/-- The loop-carried state of `RRSchedule`'s sweep (variables `timeLeft`,
`currentTime`, `processData`, `gantt`). -/
structure RRState where
  timeLeft : List Int
  currentTime : Int
  processData : List ProcessData
  gantt : List TimeSlice
deriving Repr, DecidableEq

/-- The body of the inner `for i := 0; i < n; i++` sweep at index `i`, on the
sorted list `ps`; the Bool is the `done` flag, cleared whenever a process
with time left is visited. -/
def rrVisit (ps : List Process) (sb : RRState × Bool) (i : Nat) : RRState × Bool :=
  let s := sb.1
  let tl := s.timeLeft.getD i 0
  if 0 < tl then
    let s1 :=
      if 2 < tl then
        { s with currentTime := s.currentTime + 2,
                 timeLeft := s.timeLeft.set i (tl - 2) }
      else
        { s with currentTime := s.currentTime + tl,
                 processData := s.processData.set i
                   { getPD s.processData i with
                     turnaroundTime := s.currentTime + tl - (getP ps i).ArrivalTime },
                 timeLeft := s.timeLeft.set i 0 }
    let s2 :=
      if 0 < i ∧ (getP ps i).ProcessID ≠ (getP ps (i - 1)).ProcessID then
        { s1 with gantt := s1.gantt ++
            [⟨(getP ps (i - 1)).ProcessID, s1.currentTime - 2, s1.currentTime⟩] }
      else s1
    (s2, false)
  else sb

/-- One full sweep over indices `0 .. n-1`, starting with `done = true`. -/
def rrPass (ps : List Process) (s : RRState) : RRState × Bool :=
  (List.range ps.length).foldl (rrVisit ps) (s, true)

/-- The outer `for { ...; if done { break } }` loop, with explicit fuel (the
termination theorem below shows `rrFuel` is always enough). -/
def rrLoop (ps : List Process) : Nat → RRState → RRState
  | 0, s => s
  | fuel + 1, s =>
    let sb := rrPass ps s
    if sb.2 then sb.1 else rrLoop ps fuel sb.1

/-- Fuel sufficient for the outer loop: one more than the sum of the positive
remaining times. -/
def rrFuel (ps : List Process) : Nat :=
  ps.foldl (fun (a : Nat) (p : Process) => a + p.BurstDuration.toNat) 0 + 1

/-- The initial sweep state: `timeLeft[i]` is the (sorted) burst, all
bookkeeping zeroed. -/
def rrInit (ps : List Process) : RRState :=
  { timeLeft := ps.map Process.BurstDuration
    currentTime := 0
    processData := List.replicate ps.length ⟨0, 0, 0⟩
    gantt := [] }

/-- The sweep state at the end of `RRSchedule`'s main loop, after the final
Gantt slice for the last array position has been appended (the `if n > 0`
block). -/
def rrFinal (ps : List Process) : RRState :=
  let s := rrLoop ps (rrFuel ps) (rrInit ps)
  if 0 < ps.length then
    { s with gantt := s.gantt ++
        [⟨(getP ps (ps.length - 1)).ProcessID,
          s.currentTime - s.timeLeft.getD (ps.length - 1) 0, s.currentTime⟩] }
  else s

/-- `RRSchedule` from main.go: sort by arrival, sweep until done, emit one
final slice for the last array position, then derive waiting times as
`turnaround - burst` and build the table. -/
def RRSchedule (processes : List Process) : SchedResult :=
  let ps := rrSort processes
  let n := ps.length
  let s2 := rrFinal ps
  let rows := (List.range n).map fun i =>
    (⟨(getP ps i).ProcessID, (getP ps i).Priority, (getP ps i).BurstDuration,
      (getP ps i).ArrivalTime,
      (getPD s2.processData i).turnaroundTime - (getP ps i).BurstDuration,
      (getPD s2.processData i).turnaroundTime,
      (getP ps i).ArrivalTime + (getPD s2.processData i).turnaroundTime⟩ : Row)
  let avgWaitingSum : Int := (List.range n).foldl
    (fun a i => a + ((getPD s2.processData i).turnaroundTime - (getP ps i).BurstDuration)) 0
  let avgTurnaroundSum : Int := (List.range n).foldl
    (fun a i => a + (getPD s2.processData i).turnaroundTime) 0
  { gantt := s2.gantt
    schedule := rows
    count := n
    aveWait := (avgWaitingSum : Rat) / (n : Rat)
    aveTurnaround := (avgTurnaroundSum : Rat) / (n : Rat)
    aveThroughput := (n : Rat) / (s2.currentTime : Rat)
    processesAfter := ps }

/-! ## Proof-side definitions

Derived forms of the code above (unfolded fold shapes, invariant predicates,
and decidable side conditions) used to state and prove the claims. -/

/-- Cumulative burst of the processes before index `i` — the value of the
`serviceTime` variable when `FCFSSchedule` starts iteration `i`. -/
def sumBurstBefore (ps : List Process) (i : Nat) : Int :=
  ((ps.take i).map Process.BurstDuration).sum

/-- The waiting-time value the `FCFSSchedule` loop body computes for process
`p` from loop state `acc`. -/
def fcfsWaitOf (acc : FCFSAcc) (p : Process) : Int :=
  if 0 < p.ArrivalTime then acc.serviceTime - p.ArrivalTime else acc.waitingTime

/-- The table row the `FCFSSchedule` loop body appends for process `p`. -/
def fcfsRow (acc : FCFSAcc) (p : Process) : Row :=
  ⟨p.ProcessID, p.Priority, p.BurstDuration, p.ArrivalTime, fcfsWaitOf acc p,
    p.BurstDuration + fcfsWaitOf acc p,
    p.BurstDuration + p.ArrivalTime + fcfsWaitOf acc p⟩

/-- The Gantt slice the `FCFSSchedule` loop body appends for process `p`. -/
def fcfsSlice (acc : FCFSAcc) (p : Process) : TimeSlice :=
  ⟨p.ProcessID, fcfsWaitOf acc p + p.ArrivalTime, acc.serviceTime + p.BurstDuration⟩

/-- The table rows `FCFSSchedule` generates from a given loop state onward
(`(ps.foldl FCFSbody acc).schedule = acc.schedule ++ fcfsRows acc ps`). -/
def fcfsRows (acc : FCFSAcc) : List Process → List Row
  | [] => []
  | p :: ps => fcfsRow acc p :: fcfsRows (FCFSbody acc p) ps

/-- The Gantt slices `FCFSSchedule` generates from a given loop state onward. -/
def fcfsSlices (acc : FCFSAcc) : List Process → List TimeSlice
  | [] => []
  | p :: ps => fcfsSlice acc p :: fcfsSlices (FCFSbody acc p) ps

/-- `tiledEnd a l b`: the slices `l` tile the time axis from `a` to `b`: each
slice starts where the previous one stopped, stops no earlier than it starts,
and the last stop is `b` (`a = b` for the empty list). -/
def tiledEnd : Int → List TimeSlice → Int → Prop
  | a, [], b => a = b
  | a, sl :: rest, b => sl.Start = a ∧ a ≤ sl.Stop ∧ tiledEnd sl.Stop rest b

/-- Non-overlap of two half-open slices listed in order: the earlier one
stops no later than the later one starts. -/
def beforeSlice (a b : TimeSlice) : Prop := a.Stop ≤ b.Start

/-- Ordering of two slices by start time. -/
def startLE (a b : TimeSlice) : Prop := a.Start ≤ b.Start

/-- The list of states the `SJFSchedule`/`SJFPrioritySchedule` loop visits
(the states at which the loop guard is tested and the body is run; the final
element is the state at which the guard stops the loop, or the state left
when the fuel runs out). -/
def sjfTraj (usePrio : Bool) (ps : List Process) : Nat → SJFState → List SJFState
  | 0, s => [s]
  | fuel + 1, s =>
    if noMoreProcesses s.pd then [s]
    else s :: sjfTraj usePrio ps fuel (sjfStep usePrio ps s)

/-- The tie condition of claim C6 as stated: at the given state, some two
distinct arrived (`ArrivalTime ≤ time`), unfinished (`exit = 0`) processes
have equal remaining bursts. -/
def hasArrivedTie (ps : List Process) (s : SJFState) : Bool :=
  (List.range ps.length).any fun i =>
    (List.range ps.length).any fun j =>
      !(i == j) &&
      decide ((getP ps i).ArrivalTime ≤ s.time) &&
      decide ((getP ps j).ArrivalTime ≤ s.time) &&
      ((getPD s.pd i).exit == 0) && ((getPD s.pd j).exit == 0) &&
      ((getP s.temp i).BurstDuration == (getP s.temp j).BurstDuration)

/-- The tie condition that actually drives the extra disjunct of
`SJFPrioritySchedule`: at the moment of the candidate scan (i.e. after the
first inner loop of the tick), some arrived, unfinished process other than
the current one has remaining burst equal to the current process's remaining
burst.  The current process need not have arrived. -/
def hasScanTie (ps : List Process) (s : SJFState) : Bool :=
  let s1 := sjfTick s
  (List.range ps.length).any fun j =>
    !(j == s1.current) &&
    decide ((getP ps j).ArrivalTime ≤ s1.time) &&
    ((getPD s1.pd j).exit == 0) &&
    ((getP s1.temp j).BurstDuration == (getP s1.temp s1.current).BurstDuration)

/-- Sum of the remaining bursts of the unfinished processes plus a penalty of
one when the current process is finished: the termination measure for the
SJF loops once every process has arrived. -/
def sjfMeasure (n : Nat) (s : SJFState) : Int :=
  (Finset.range n).sum
    (fun i => if (getPD s.pd i).exit = 0 then (getP s.temp i).BurstDuration else 0) +
  (if (getPD s.pd s.current).exit = 0 then 0 else 1)

/-- The largest arrival time of the input (0 for the empty list): after this
time every process has arrived. -/
def maxArrival (ps : List Process) : Int :=
  ps.foldl (fun (m : Int) (p : Process) => max m p.ArrivalTime) 0

/-- Sum of the positive parts of the remaining times: the termination measure
for the round-robin sweep. -/
def rrMeasure (s : RRState) : Nat :=
  (s.timeLeft.map Int.toNat).sum

/-- Loop invariant of the round-robin sweep on all-zero arrivals: the
bookkeeping slices keep their length, remaining times never go negative, the
work already granted to each process (`burst - timeLeft`) is bounded by the
clock, and every finished process has recorded turnaround at least its
burst. -/
def rrWaitInv (ps : List Process) (s : RRState) : Prop :=
  s.timeLeft.length = ps.length ∧
  s.processData.length = ps.length ∧
  (∀ t ∈ s.timeLeft, 0 ≤ t) ∧
  (∀ j, j < ps.length →
    (getP ps j).BurstDuration - s.timeLeft.getD j 0 ≤ s.currentTime) ∧
  (∀ j, j < ps.length → s.timeLeft.getD j 0 = 0 →
    (getP ps j).BurstDuration ≤ (getPD s.processData j).turnaroundTime)

/-- Loop invariant of the round-robin sweep for Gantt ordering: slices are
sorted by start and every recorded start lies at least a quantum before the
clock. -/
def rrGanttInv (s : RRState) : Prop :=
  s.gantt.Pairwise startLE ∧ ∀ sl ∈ s.gantt, sl.Start + 2 ≤ s.currentTime

/-- Loop invariant of the SJF simulation for Gantt ordering: the recorded
slices tile the time axis from 0 up to the running slice's start, which is
never ahead of the clock. -/
def sjfGanttInv (s : SJFState) : Prop :=
  tiledEnd 0 s.gantt s.start ∧ s.start ≤ s.time

/-- Loop invariant of the SJF simulation (inputs with positive bursts and
non-negative arrivals): the two bookkeeping slices keep the input's length,
the current index is in range, arrival times are never mutated, remaining
bursts never exceed the originals, an unfinished process has remaining burst
at least 1, a finished process has remaining burst at most 0, and the clock
is non-negative. -/
def sjfInv (ps : List Process) (s : SJFState) : Prop :=
  s.temp.length = ps.length ∧
  s.pd.length = ps.length ∧
  s.current < ps.length ∧
  (∀ i, i < ps.length →
    (getP s.temp i).ArrivalTime = (getP ps i).ArrivalTime) ∧
  (∀ i, i < ps.length →
    (getP s.temp i).BurstDuration ≤ (getP ps i).BurstDuration) ∧
  (∀ i, i < ps.length → (getPD s.pd i).exit = 0 →
    1 ≤ (getP s.temp i).BurstDuration) ∧
  (∀ i, i < ps.length → (getPD s.pd i).exit ≠ 0 →
    (getP s.temp i).BurstDuration ≤ 0) ∧
  0 ≤ s.time

/-! # Theorems

General lemmas about the helper functions, then structural lemmas about each
scheduler, then the theorems settling the claims C1–C10. -/

theorem length_mapI (f : Nat → α → α) (i : Nat) (l : List α) :
    (mapI f i l).length = l.length := by
  induction l generalizing i with
  | nil => rfl
  | cons a l ih => simp [mapI, ih]

theorem getD_mapI (f : Nat → α → α) (i j : Nat) (l : List α) (d : α)
    (h : j < l.length) :
    (mapI f i l).getD j d = f (i + j) (l.getD j d) := by
  induction l generalizing i j with
  | nil => simp at h
  | cons a l ih =>
    cases j with
    | zero => simp [mapI]
    | succ j =>
      simp only [mapI, List.getD_cons_succ]
      rw [ih (i + 1) j (by simpa using Nat.lt_of_succ_lt_succ h)]
      ring_nf

theorem getD_mapI_ge (f : Nat → α → α) (i j : Nat) (l : List α) (d : α)
    (h : l.length ≤ j) :
    (mapI f i l).getD j d = d := by
  apply List.getD_eq_default
  rw [length_mapI]; exact h

/-! ## Lemmas about tiled slice lists -/

theorem tiledEnd_append {a b c : Int} {l : List TimeSlice} {pid : Int}
    (h : tiledEnd a l b) (hbc : b ≤ c) :
    tiledEnd a (l ++ [⟨pid, b, c⟩]) c := by
  induction l generalizing a with
  | nil => exact ⟨h.symm, h ▸ hbc, rfl⟩
  | cons sl rest ih => exact ⟨h.1, h.2.1, ih h.2.2⟩

theorem tiledEnd_le {a b : Int} {l : List TimeSlice} (h : tiledEnd a l b) :
    a ≤ b := by
  induction l generalizing a with
  | nil => exact le_of_eq h
  | cons sl rest ih => exact le_trans h.2.1 (ih h.2.2)

theorem tiledEnd_start_le {a b : Int} {l : List TimeSlice} (h : tiledEnd a l b) :
    ∀ sl ∈ l, a ≤ sl.Start := by
  induction l generalizing a with
  | nil => intro sl hsl; cases hsl
  | cons x rest ih =>
    intro sl hsl
    rw [List.mem_cons] at hsl
    rcases hsl with rfl | hsl
    · exact le_of_eq h.1.symm
    · exact le_trans (h.1 ▸ h.2.1) (ih h.2.2 sl hsl)

theorem tiledEnd_pairwise_before {a b : Int} {l : List TimeSlice}
    (h : tiledEnd a l b) : l.Pairwise beforeSlice := by
  induction l generalizing a with
  | nil => exact List.Pairwise.nil
  | cons x rest ih =>
    exact List.Pairwise.cons (fun sl hsl => tiledEnd_start_le h.2.2 sl hsl) (ih h.2.2)

theorem tiledEnd_start_stop {a b : Int} {l : List TimeSlice}
    (h : tiledEnd a l b) : ∀ sl ∈ l, sl.Start ≤ sl.Stop := by
  induction l generalizing a with
  | nil => intro sl hsl; cases hsl
  | cons x rest ih =>
    intro sl hsl
    rw [List.mem_cons] at hsl
    rcases hsl with rfl | hsl
    · exact h.1 ▸ h.2.1
    · exact ih h.2.2 sl hsl

theorem pairwise_startLE_of_before {l : List TimeSlice}
    (hb : l.Pairwise beforeSlice) (hss : ∀ sl ∈ l, sl.Start ≤ sl.Stop) :
    l.Pairwise startLE := by
  refine hb.imp_of_mem ?_
  intro a c ha hc h
  exact le_trans (hss a ha) h

/-! ## Structural lemmas about `FCFSSchedule` -/

theorem FCFSbody_schedule (acc : FCFSAcc) (p : Process) :
    (FCFSbody acc p).schedule = acc.schedule ++ [fcfsRow acc p] := rfl

theorem FCFSbody_gantt (acc : FCFSAcc) (p : Process) :
    (FCFSbody acc p).gantt = acc.gantt ++ [fcfsSlice acc p] := rfl

theorem FCFSbody_serviceTime (acc : FCFSAcc) (p : Process) :
    (FCFSbody acc p).serviceTime = acc.serviceTime + p.BurstDuration := rfl

theorem FCFSbody_waitingTime (acc : FCFSAcc) (p : Process) :
    (FCFSbody acc p).waitingTime = fcfsWaitOf acc p := rfl

theorem fcfs_foldl_schedule (ps : List Process) (acc : FCFSAcc) :
    (ps.foldl FCFSbody acc).schedule = acc.schedule ++ fcfsRows acc ps := by
  induction ps generalizing acc with
  | nil => simp [fcfsRows]
  | cons p ps ih =>
    simp only [List.foldl_cons, fcfsRows, ih (FCFSbody acc p), FCFSbody_schedule]
    simp

theorem fcfs_foldl_gantt (ps : List Process) (acc : FCFSAcc) :
    (ps.foldl FCFSbody acc).gantt = acc.gantt ++ fcfsSlices acc ps := by
  induction ps generalizing acc with
  | nil => simp [fcfsSlices]
  | cons p ps ih =>
    simp only [List.foldl_cons, fcfsSlices, ih (FCFSbody acc p), FCFSbody_gantt]
    simp

theorem fcfsRows_length (acc : FCFSAcc) (ps : List Process) :
    (fcfsRows acc ps).length = ps.length := by
  induction ps generalizing acc with
  | nil => rfl
  | cons p ps ih => simp [fcfsRows, ih]

theorem FCFSSchedule_schedule (ps : List Process) :
    (FCFSSchedule ps).schedule = fcfsRows FCFSinit ps := by
  simp [FCFSSchedule, fcfs_foldl_schedule, FCFSinit]

theorem FCFSSchedule_gantt (ps : List Process) :
    (FCFSSchedule ps).gantt = fcfsSlices FCFSinit ps := by
  simp [FCFSSchedule, fcfs_foldl_gantt, FCFSinit]

theorem fcfsRows_wait (ps : List Process) (acc : FCFSAcc) :
    ∀ i, i < ps.length →
      ((fcfsRows acc ps).getD i default).wait =
        if 0 < (getP ps i).ArrivalTime then
          acc.serviceTime + sumBurstBefore ps i - (getP ps i).ArrivalTime
        else if i = 0 then acc.waitingTime
        else ((fcfsRows acc ps).getD (i - 1) default).wait := by
  induction ps generalizing acc with
  | nil => intro i h; simp at h
  | cons p ps ih =>
    intro i h
    cases i with
    | zero =>
      simp [fcfsRows, fcfsRow, fcfsWaitOf, sumBurstBefore, getP]
    | succ j =>
      have hj : j < ps.length := by simpa using Nat.lt_of_succ_lt_succ h
      have hsb : sumBurstBefore (p :: ps) (j + 1)
          = p.BurstDuration + sumBurstBefore ps j := by
        simp [sumBurstBefore]
      have hL : (fcfsRows acc (p :: ps)).getD (j + 1) default
          = (fcfsRows (FCFSbody acc p) ps).getD j default := rfl
      have hgp : getP (p :: ps) (j + 1) = getP ps j := rfl
      rw [hL, ih (FCFSbody acc p) j hj, hgp, hsb]
      by_cases h0 : 0 < (getP ps j).ArrivalTime
      · simp only [if_pos h0, FCFSbody_serviceTime]
        ring_nf
      · simp only [if_neg h0, Nat.succ_ne_zero, if_false]
        cases j with
        | zero =>
          simp [FCFSbody_waitingTime, fcfsRows, fcfsRow]
        | succ k =>
          simp only [Nat.succ_ne_zero, if_false]
          rfl

/-! ## Claim C1

The spec's concrete FCFS scenario `P1(arrival=0,burst=5)`, `P2(1,3)`,
`P3(2,1)`.  The code serves them in input order and gives P1 wait 0 and P2
wait 4 as claimed, but P3's waiting time is `serviceTime - arrival = 8 - 2 =
6`, not 7, and the average is 10/3, not 11/3. -/

/-- Claim C1, counterexample: on the spec's scenario the FCFS code reports
waiting time 6 (not 7) for P3 and average waiting time 10/3 (not 11/3). -/
theorem C1_counterexample :
    ((FCFSSchedule [⟨1, 0, 5, 0⟩, ⟨2, 1, 3, 0⟩, ⟨3, 2, 1, 0⟩]).schedule.getD 2
        default).wait ≠ 7 ∧
    (FCFSSchedule [⟨1, 0, 5, 0⟩, ⟨2, 1, 3, 0⟩, ⟨3, 2, 1, 0⟩]).aveWait ≠ 11 / 3 :=
  ⟨by decide, by norm_num [FCFSSchedule, FCFSbody, FCFSinit]⟩

/-- Claim C1 as amended: for the input list P1(arrival=0,burst=5),
P2(arrival=1,burst=3), P3(arrival=2,burst=1), `FCFSSchedule` serves them in
input order and computes waiting times 0 for P1, 4 for P2, and 6 for P3,
with average waiting time 10/3. -/
theorem C1_fcfs_scenario :
    (FCFSSchedule [⟨1, 0, 5, 0⟩, ⟨2, 1, 3, 0⟩, ⟨3, 2, 1, 0⟩]).gantt.map
        TimeSlice.PID = [1, 2, 3] ∧
    (FCFSSchedule [⟨1, 0, 5, 0⟩, ⟨2, 1, 3, 0⟩, ⟨3, 2, 1, 0⟩]).schedule.map
        Row.wait = [0, 4, 6] ∧
    (FCFSSchedule [⟨1, 0, 5, 0⟩, ⟨2, 1, 3, 0⟩, ⟨3, 2, 1, 0⟩]).aveWait = 10 / 3 :=
  ⟨by decide, by decide, by norm_num [FCFSSchedule, FCFSbody, FCFSinit]⟩

/-! ## Claim C2

The code computes `waitingTime = serviceTime - arrivalTime` for a process
with positive arrival time — with no `max(0, ·)` clamp, so the value can be
negative.  Processes with arrival 0 keep the previous iteration's value, as
claimed. -/

/-- Claim C2, counterexample: a single process with arrival 1 and burst 1 is
assigned waiting time `0 - 1 = -1`, not `max(0, 0 - 1) = 0`. -/
theorem C2_counterexample :
    ((FCFSSchedule [⟨1, 1, 1, 0⟩]).schedule.getD 0 default).wait = -1 ∧
    ((FCFSSchedule [⟨1, 1, 1, 0⟩]).schedule.getD 0 default).wait
      ≠ max 0 (sumBurstBefore [⟨1, 1, 1, 0⟩] 0 - 1) := by
  constructor
  · decide
  · decide

/-- Claim C2 as amended: in `FCFSSchedule`, a process with arrival time
strictly greater than 0 is assigned waiting time `serviceTime - arrival`
(without any clamp to 0), where `serviceTime` is the cumulative burst of the
earlier processes, and a process with arrival time 0 keeps the waiting-time
value left over from the previous iteration (0 at the first index). -/
theorem C2_fcfs_waiting_rule (ps : List Process) (i : Nat) (h : i < ps.length) :
    (0 < (getP ps i).ArrivalTime →
      ((FCFSSchedule ps).schedule.getD i default).wait
        = sumBurstBefore ps i - (getP ps i).ArrivalTime) ∧
    ((getP ps i).ArrivalTime ≤ 0 →
      ((FCFSSchedule ps).schedule.getD i default).wait
        = if i = 0 then 0 else
            ((FCFSSchedule ps).schedule.getD (i - 1) default).wait) := by
  have key := fcfsRows_wait ps FCFSinit i h
  rw [FCFSSchedule_schedule]
  constructor
  · intro h0
    rw [key, if_pos h0]
    show (0 : Int) + sumBurstBefore ps i - _ = _
    ring
  · intro h0
    rw [key, if_neg (not_lt.mpr h0)]
    rfl

/-- Witness for C2: in the spec's scenario, P2 (index 1, arrival 1) gets
waiting time `sumBurstBefore - arrival = 5 - 1 = 4`. -/
theorem C2_witness :
    ((FCFSSchedule [⟨1, 0, 5, 0⟩, ⟨2, 1, 3, 0⟩, ⟨3, 2, 1, 0⟩]).schedule.getD 1
        default).wait
      = sumBurstBefore [⟨1, 0, 5, 0⟩, ⟨2, 1, 3, 0⟩, ⟨3, 2, 1, 0⟩] 1
        - (getP [⟨1, 0, 5, 0⟩, ⟨2, 1, 3, 0⟩, ⟨3, 2, 1, 0⟩] 1).ArrivalTime :=
  (C2_fcfs_waiting_rule [⟨1, 0, 5, 0⟩, ⟨2, 1, 3, 0⟩, ⟨3, 2, 1, 0⟩] 1
    (by decide)).1 (by decide)

/-! ## Claim C9

In all four schedulers the turnaround column is related to the wait and
(original) burst columns exactly as claimed — by construction of each row. -/

theorem fcfsRows_turnaround (ps : List Process) (acc : FCFSAcc) :
    (fcfsRows acc ps).all (fun r => r.turnaround == r.wait + r.burst) = true := by
  induction ps generalizing acc with
  | nil => rfl
  | cons p ps ih =>
    simp only [fcfsRows, List.all_cons, Bool.and_eq_true]
    refine ⟨?_, ih (FCFSbody acc p)⟩
    simp [fcfsRow, Int.add_comm]

theorem sjfResult_schedule (ps : List Process) (s : SJFState) :
    (sjfResult ps s).schedule = (List.range ps.length).map fun i =>
      (⟨(getP ps i).ProcessID, (getP ps i).Priority, (getP ps i).BurstDuration,
        (getP ps i).ArrivalTime, (getPD s.pd i).waitingTime,
        (getPD s.pd i).waitingTime + (getP ps i).BurstDuration,
        (getPD s.pd i).exit⟩ : Row) := rfl

theorem RRSchedule_schedule (processes : List Process) :
    (RRSchedule processes).schedule =
      (List.range (rrSort processes).length).map fun i =>
        let ps := rrSort processes
        let s2 := rrFinal ps
        (⟨(getP ps i).ProcessID, (getP ps i).Priority, (getP ps i).BurstDuration,
          (getP ps i).ArrivalTime,
          (getPD s2.processData i).turnaroundTime - (getP ps i).BurstDuration,
          (getPD s2.processData i).turnaroundTime,
          (getP ps i).ArrivalTime + (getPD s2.processData i).turnaroundTime⟩ : Row) := rfl

/-- Claim C9: in the output of `FCFSSchedule`, `SJFSchedule` and
`SJFPrioritySchedule` every row's turnaround equals its waiting time plus the
process's original burst, and in the output of `RRSchedule` every row's
waiting time equals its turnaround minus the process's burst. -/
theorem C9_turnaround_relation (ps : List Process) :
    ((FCFSSchedule ps).schedule.all (fun r => r.turnaround == r.wait + r.burst)
      = true) ∧
    ((SJFSchedule ps).schedule.all (fun r => r.turnaround == r.wait + r.burst)
      = true) ∧
    ((SJFPrioritySchedule ps).schedule.all (fun r => r.turnaround == r.wait + r.burst)
      = true) ∧
    ((RRSchedule ps).schedule.all (fun r => r.wait == r.turnaround - r.burst)
      = true) := by
  refine ⟨?_, ?_, ?_, ?_⟩
  · rw [FCFSSchedule_schedule]; exact fcfsRows_turnaround ps FCFSinit
  · rw [SJFSchedule, sjfResult_schedule, List.all_eq_true]
    intro r hr
    rcases List.mem_map.mp hr with ⟨i, _, rfl⟩
    exact beq_self_eq_true _
  · rw [SJFPrioritySchedule, sjfResult_schedule, List.all_eq_true]
    intro r hr
    rcases List.mem_map.mp hr with ⟨i, _, rfl⟩
    exact beq_self_eq_true _
  · rw [RRSchedule_schedule, List.all_eq_true]
    intro r hr
    rcases List.mem_map.mp hr with ⟨i, _, rfl⟩
    exact beq_self_eq_true _

/-! ## Claim C4

The Gantt slices of `SJFSchedule`/`SJFPrioritySchedule` carry `current + 1`
(the 0-based array index of the running process plus one) in their PID field,
not the process's `ProcessID`. -/

/-- `sjfStep` written with explicit projections instead of the destructuring
`let`, for case analysis. -/
theorem sjfStep_def (usePrio : Bool) (ps : List Process) (s : SJFState) :
    sjfStep usePrio ps s =
      if sjfFinished s || (sjfScan usePrio ps (sjfTick s)).2 then
        { sjfTick s with
          gantt := (sjfTick s).gantt ++ [⟨(s.current : Int) + 1, s.start, s.time⟩]
          current := (sjfScan usePrio ps (sjfTick s)).1
          start := s.time
          time := s.time + 1 }
      else { sjfTick s with time := s.time + 1 } := rfl

/-- Claim C4, counterexample: on a single process with `ProcessID = 42`, both
shortest-job schedulers emit a Gantt slice whose PID field is 1 (the index
plus one), not 42, even though that process held the processor. -/
theorem C4_counterexample :
    ((SJFSchedule [⟨42, 0, 1, 0⟩]).gantt.getD 0 default).PID
        ≠ (getP [⟨42, 0, 1, 0⟩] 0).ProcessID ∧
    ((SJFPrioritySchedule [⟨42, 0, 1, 0⟩]).gantt.getD 0 default).PID
        ≠ (getP [⟨42, 0, 1, 0⟩] 0).ProcessID ∧
    (SJFSchedule [⟨42, 0, 1, 0⟩]).gantt.length = 1 ∧
    (SJFPrioritySchedule [⟨42, 0, 1, 0⟩]).gantt.length = 1 := by decide

/-- Claim C4 as amended: every Gantt slice emitted by a step of
`SJFSchedule` or `SJFPrioritySchedule` has PID field equal to the 0-based
index (`current`) of the process that held the processor plus one — which is
that process's `ProcessID` only when the IDs are numbered `1..n` in input
order — and spans from the slice start `s.start` to the current clock. -/
theorem C4_gantt_pid_is_index (usePrio : Bool) (ps : List Process) (s : SJFState) :
    (sjfStep usePrio ps s).gantt = s.gantt ∨
    (sjfStep usePrio ps s).gantt
      = s.gantt ++ [⟨(s.current : Int) + 1, s.start, s.time⟩] := by
  rw [sjfStep_def]
  by_cases h : (sjfFinished s || (sjfScan usePrio ps (sjfTick s)).2) = true
  · rw [if_pos h]; right; rfl
  · rw [if_neg h]; left; rfl

/-! ## Claim C8

`RRSchedule` sorts the caller's slice in place by ascending arrival time; the
other three schedulers never write to the caller's slice. -/

/-- Claim C8: after the call, the caller's process list is unchanged for
`FCFSSchedule`, `SJFSchedule` and `SJFPrioritySchedule`, while `RRSchedule`
leaves a permutation of the input sorted by ascending arrival time. -/
theorem C8_mutation (ps : List Process) :
    (FCFSSchedule ps).processesAfter = ps ∧
    (SJFSchedule ps).processesAfter = ps ∧
    (SJFPrioritySchedule ps).processesAfter = ps ∧
    List.Perm (RRSchedule ps).processesAfter ps ∧
    List.Sorted arrivalLE (RRSchedule ps).processesAfter := by
  refine ⟨rfl, rfl, rfl, ?_, ?_⟩
  · exact List.perm_insertionSort arrivalLE ps
  · exact List.sorted_insertionSort arrivalLE ps

/-! ## Generic projection lemmas for the SJF simulation step -/

theorem sjfStep_pd (usePrio : Bool) (ps : List Process) (s : SJFState) :
    (sjfStep usePrio ps s).pd = (sjfTick s).pd := by
  rw [sjfStep_def]; split <;> rfl

theorem sjfStep_temp (usePrio : Bool) (ps : List Process) (s : SJFState) :
    (sjfStep usePrio ps s).temp = (sjfTick s).temp := by
  rw [sjfStep_def]; split <;> rfl

theorem sjfStep_time (usePrio : Bool) (ps : List Process) (s : SJFState) :
    (sjfStep usePrio ps s).time = s.time + 1 := by
  rw [sjfStep_def]; split <;> rfl

theorem sjfTick_pd_length (s : SJFState) :
    (sjfTick s).pd.length = s.pd.length := length_mapI _ _ _

theorem sjfTick_temp_length (s : SJFState) :
    (sjfTick s).temp.length = s.temp.length := length_mapI _ _ _

theorem getPD_sjfTick (s : SJFState) (i : Nat) (hi : i < s.pd.length) :
    getPD (sjfTick s).pd i =
      (if (getP s.temp i).ArrivalTime < s.time then
        if i ≠ s.current ∧ (getPD s.pd i).exit = 0 then
          { getPD s.pd i with waitingTime := (getPD s.pd i).waitingTime + 1 }
        else if i = s.current ∧ (getP s.temp i).BurstDuration - 1 = 0 then
          { getPD s.pd i with exit := s.time }
        else getPD s.pd i
      else getPD s.pd i) := by
  unfold sjfTick getPD
  simpa using getD_mapI _ 0 i s.pd default hi

theorem getP_sjfTick (s : SJFState) (i : Nat) (hi : i < s.temp.length) :
    getP (sjfTick s).temp i =
      (if (getP s.temp i).ArrivalTime < s.time ∧ i = s.current then
        { getP s.temp i with BurstDuration := (getP s.temp i).BurstDuration - 1 }
      else getP s.temp i) := by
  unfold sjfTick getP
  simpa using getD_mapI _ 0 i s.temp default hi

theorem getPD_sjfTick_ge (s : SJFState) (i : Nat) (hi : s.pd.length ≤ i) :
    getPD (sjfTick s).pd i = default := by
  unfold sjfTick getPD
  exact getD_mapI_ge _ 0 i s.pd default hi

theorem getP_sjfTick_ge (s : SJFState) (i : Nat) (hi : s.temp.length ≤ i) :
    getP (sjfTick s).temp i = default := by
  unfold sjfTick getP
  exact getD_mapI_ge _ 0 i s.temp default hi

/-! ## Small indexing helpers -/

theorem getD_set_self (l : List α) (i : Nat) (v d : α) (h : i < l.length) :
    (l.set i v).getD i d = v := by
  rw [List.getD_eq_getElem _ _ (by simpa using h)]
  exact List.getElem_set_self _

theorem getD_set_ne (l : List α) (i j : Nat) (v d : α) (h : i ≠ j) :
    (l.set i v).getD j d = l.getD j d := by
  by_cases hj : j < l.length
  · rw [List.getD_eq_getElem _ _ (by simpa using hj),
        List.getD_eq_getElem _ _ hj]
    exact List.getElem_set_ne h _
  · rw [List.getD_eq_default _ _ (by simpa using le_of_not_lt hj),
        List.getD_eq_default _ _ (le_of_not_lt hj)]

theorem getD_replicate (n : Nat) (a d : α) (i : Nat) (h : i < n) :
    (List.replicate n a).getD i d = a := by
  rw [List.getD_eq_getElem _ _ (by simpa using h)]
  exact List.getElem_replicate a _

theorem getD_map_burst (l : List Process) (i : Nat) (h : i < l.length) :
    (l.map Process.BurstDuration).getD i 0 = (getP l i).BurstDuration := by
  rw [List.getD_eq_getElem _ _ (by simpa using h), List.getElem_map,
      getP, List.getD_eq_getElem _ _ h]

/-! ## SJF waiting times never decrease below zero (for claim C3) -/

theorem sjfTick_wait_nonneg (s : SJFState)
    (h : ∀ i, 0 ≤ (getPD s.pd i).waitingTime) :
    ∀ i, 0 ≤ (getPD (sjfTick s).pd i).waitingTime := by
  intro i
  by_cases hi : i < s.pd.length
  · rw [getPD_sjfTick s i hi]
    split_ifs with h1 h2 h3
    · have := h i
      show 0 ≤ (getPD s.pd i).waitingTime + 1
      omega
    · exact h i
    · exact h i
    · exact h i
  · rw [getPD_sjfTick_ge s i (le_of_not_lt hi)]
    decide

theorem sjfRun_wait_nonneg (usePrio : Bool) (ps : List Process) (fuel : Nat) :
    ∀ s : SJFState, (∀ i, 0 ≤ (getPD s.pd i).waitingTime) →
      ∀ i, 0 ≤ (getPD (sjfRun usePrio ps fuel s).pd i).waitingTime := by
  induction fuel with
  | zero => intro s h; exact h
  | succ fuel ih =>
    intro s h
    rw [sjfRun]
    split
    · exact h
    · exact ih _ (fun i => by rw [sjfStep_pd]; exact sjfTick_wait_nonneg s h i)

theorem sjfInit_wait_nonneg (ps : List Process) :
    ∀ i, 0 ≤ (getPD (sjfInit ps).pd i).waitingTime := by
  intro i
  show 0 ≤ ((List.replicate ps.length (⟨0, 0, 0⟩ : ProcessData)).getD i
      default).waitingTime
  by_cases hi : i < ps.length
  · rw [getD_replicate _ _ _ _ hi]
  · rw [List.getD_eq_default _ _ (by simpa using le_of_not_lt hi)]
    decide

/-! ## FCFS waits on all-zero arrivals (for claim C3) -/

theorem fcfsRows_wait_zero (ps : List Process) (acc : FCFSAcc)
    (hps : ∀ p ∈ ps, p.ArrivalTime = 0) (hacc : acc.waitingTime = 0) :
    (fcfsRows acc ps).all (fun r => r.wait == 0) = true := by
  induction ps generalizing acc with
  | nil => rfl
  | cons p ps ih =>
    have hp : p.ArrivalTime = 0 := hps p (List.mem_cons_self p ps)
    have hw : fcfsWaitOf acc p = 0 := by
      rw [fcfsWaitOf, if_neg (by rw [hp]; exact lt_irrefl 0), hacc]
    simp only [fcfsRows, List.all_cons, Bool.and_eq_true]
    constructor
    · show (fcfsRow acc p).wait == 0
      rw [fcfsRow]
      show (fcfsWaitOf acc p == 0) = true
      rw [hw]; rfl
    · exact ih (FCFSbody acc p)
        (fun q hq => hps q (List.mem_cons_of_mem p hq))
        (by rw [FCFSbody_waitingTime, hw])

/-! ## Lemmas about the round-robin sweep -/

theorem rrVisit_skip (ps : List Process) (sb : RRState × Bool) (i : Nat)
    (h : ¬ 0 < sb.1.timeLeft.getD i 0) :
    rrVisit ps sb i = sb := by
  simp only [rrVisit]
  rw [if_neg h]

theorem rrVisit_snd_pos (ps : List Process) (sb : RRState × Bool) (i : Nat)
    (h : 0 < sb.1.timeLeft.getD i 0) :
    (rrVisit ps sb i).2 = false := by
  simp only [rrVisit]
  rw [if_pos h]

theorem rrVisit_timeLeft_length (ps : List Process) (sb : RRState × Bool) (i : Nat) :
    (rrVisit ps sb i).1.timeLeft.length = sb.1.timeLeft.length := by
  by_cases h : 0 < sb.1.timeLeft.getD i 0
  · simp only [rrVisit]
    rw [if_pos h]
    split_ifs <;> simp [List.length_set]
  · rw [rrVisit_skip ps sb i h]

theorem rrVisit_processData_length (ps : List Process) (sb : RRState × Bool) (i : Nat) :
    (rrVisit ps sb i).1.processData.length = sb.1.processData.length := by
  by_cases h : 0 < sb.1.timeLeft.getD i 0
  · simp only [rrVisit]
    rw [if_pos h]
    split_ifs <;> simp [List.length_set]
  · rw [rrVisit_skip ps sb i h]

theorem rrVisit_currentTime_mono (ps : List Process) (sb : RRState × Bool) (i : Nat) :
    sb.1.currentTime ≤ (rrVisit ps sb i).1.currentTime := by
  by_cases h : 0 < sb.1.timeLeft.getD i 0
  · simp only [rrVisit]
    rw [if_pos h]
    split_ifs <;> dsimp only <;> omega
  · rw [rrVisit_skip ps sb i h]

theorem rrVisit_tl_nonneg (ps : List Process) (sb : RRState × Bool) (i : Nat)
    (h : ∀ t ∈ sb.1.timeLeft, 0 ≤ t) :
    ∀ t ∈ (rrVisit ps sb i).1.timeLeft, 0 ≤ t := by
  by_cases h0 : 0 < sb.1.timeLeft.getD i 0
  · simp only [rrVisit]
    rw [if_pos h0]
    split_ifs with h1 h2 h3 <;> intro t ht <;> dsimp only at ht <;>
      rcases List.mem_or_eq_of_mem_set ht with ht' | rfl <;>
      first
        | exact h t ht'
        | omega
  · rw [rrVisit_skip ps sb i h0]; exact h

theorem sum_toNat_set (l : List Int) (i : Nat) (v : Int) (h : i < l.length) :
    ((l.set i v).map Int.toNat).sum + (l.getD i 0).toNat
      = (l.map Int.toNat).sum + v.toNat := by
  induction l generalizing i with
  | nil => simp at h
  | cons a l ih =>
    cases i with
    | zero => simp [List.set]; omega
    | succ i =>
      simp only [List.set, List.map_cons, List.sum_cons, List.getD_cons_succ]
      have := ih i (by simpa using h)
      omega

theorem rrVisit_measure_le (ps : List Process) (sb : RRState × Bool) (i : Nat) :
    rrMeasure (rrVisit ps sb i).1 ≤ rrMeasure sb.1 := by
  by_cases h0 : 0 < sb.1.timeLeft.getD i 0
  · have hi : i < sb.1.timeLeft.length := by
      by_contra hi
      rw [List.getD_eq_default _ _ (le_of_not_lt hi)] at h0
      exact lt_irrefl 0 h0
    have key1 := sum_toNat_set sb.1.timeLeft i (sb.1.timeLeft.getD i 0 - 2) hi
    have key2 := sum_toNat_set sb.1.timeLeft i 0 hi
    simp only [rrVisit]
    rw [if_pos h0]
    split_ifs with h1 h2 h3 <;> simp only [rrMeasure] <;> omega
  · rw [rrVisit_skip ps sb i h0]

theorem rrVisit_measure_lt (ps : List Process) (sb : RRState × Bool) (i : Nat)
    (h0 : 0 < sb.1.timeLeft.getD i 0) :
    rrMeasure (rrVisit ps sb i).1 < rrMeasure sb.1 := by
  have hi : i < sb.1.timeLeft.length := by
    by_contra hi
    rw [List.getD_eq_default _ _ (le_of_not_lt hi)] at h0
    exact lt_irrefl 0 h0
  have key1 := sum_toNat_set sb.1.timeLeft i (sb.1.timeLeft.getD i 0 - 2) hi
  have key2 := sum_toNat_set sb.1.timeLeft i 0 hi
  have htl : (0 : Int) < sb.1.timeLeft.getD i 0 := h0
  simp only [rrVisit]
  rw [if_pos h0]
  split_ifs with h1 h2 h3 <;> simp only [rrMeasure] <;> omega

theorem rrFold_pres {P : RRState → Prop} (ps : List Process)
    (h : ∀ sb i, P sb.1 → P ((rrVisit ps sb i).1)) :
    ∀ (l : List Nat) (sb : RRState × Bool), P sb.1 →
      P ((l.foldl (rrVisit ps) sb).1) := by
  intro l
  induction l with
  | nil => intro sb hP; exact hP
  | cons i l ih => intro sb hP; exact ih _ (h sb i hP)

theorem rrFold_true (ps : List Process) :
    ∀ (l : List Nat) (sb : RRState × Bool),
      (l.foldl (rrVisit ps) sb).2 = true →
      (l.foldl (rrVisit ps) sb).1 = sb.1 ∧ sb.2 = true ∧
        ∀ i ∈ l, sb.1.timeLeft.getD i 0 ≤ 0 := by
  intro l
  induction l with
  | nil => intro sb h; exact ⟨rfl, h, by intro i hi; cases hi⟩
  | cons i l ih =>
    intro sb h
    rw [List.foldl_cons] at h ⊢
    by_cases h0 : 0 < sb.1.timeLeft.getD i 0
    · rcases ih _ h with ⟨_, h2, _⟩
      rw [rrVisit_snd_pos ps sb i h0] at h2
      cases h2
    · rw [rrVisit_skip ps sb i h0] at h ⊢
      rcases ih _ h with ⟨h1, h2, h3⟩
      refine ⟨h1, h2, ?_⟩
      intro j hj
      rcases List.mem_cons.mp hj with rfl | hj
      · exact le_of_not_lt h0
      · exact h3 j hj

theorem rrFold_measure_le (ps : List Process) :
    ∀ (l : List Nat) (sb : RRState × Bool),
      rrMeasure ((l.foldl (rrVisit ps) sb).1) ≤ rrMeasure sb.1 := by
  intro l
  induction l with
  | nil => intro sb; exact le_refl _
  | cons i l ih =>
    intro sb
    rw [List.foldl_cons]
    exact le_trans (ih _) (rrVisit_measure_le ps sb i)

theorem rrFold_measure_lt (ps : List Process) :
    ∀ (l : List Nat) (sb : RRState × Bool),
      (l.foldl (rrVisit ps) sb).2 = false → sb.2 = true →
      rrMeasure ((l.foldl (rrVisit ps) sb).1) < rrMeasure sb.1 := by
  intro l
  induction l with
  | nil => intro sb h1 h2; rw [List.foldl_nil, h2] at h1; cases h1
  | cons i l ih =>
    intro sb h1 h2
    rw [List.foldl_cons] at h1 ⊢
    by_cases h0 : 0 < sb.1.timeLeft.getD i 0
    · exact lt_of_le_of_lt (rrFold_measure_le ps l _)
        (rrVisit_measure_lt ps sb i h0)
    · rw [rrVisit_skip ps sb i h0] at h1 ⊢
      exact ih sb h1 h2

theorem rrPass_timeLeft_length (ps : List Process) (s : RRState) :
    (rrPass ps s).1.timeLeft.length = s.timeLeft.length := by
  unfold rrPass
  exact @rrFold_pres (fun st => st.timeLeft.length = s.timeLeft.length) ps
    (fun sb i h => by dsimp only at h ⊢; rw [rrVisit_timeLeft_length]; exact h)
    (List.range ps.length) (s, true) rfl

theorem rrLoop_stopped (ps : List Process) :
    ∀ (fuel : Nat) (s : RRState), s.timeLeft.length = ps.length →
      rrMeasure s < fuel → ∀ t ∈ (rrLoop ps fuel s).timeLeft, t ≤ 0 := by
  intro fuel
  induction fuel with
  | zero => intro s _ hm; exact absurd hm (Nat.not_lt_zero _)
  | succ fuel ih =>
    intro s hlen hm
    rw [rrLoop]
    by_cases hd : (rrPass ps s).2 = true
    · simp only [hd, if_true]
      rcases rrFold_true ps (List.range ps.length) (s, true) hd with ⟨h1, _, h3⟩
      rw [show (rrPass ps s).1 = s from h1]
      intro t ht
      rcases List.mem_iff_getElem.mp ht with ⟨j, hj, rfl⟩
      have hjn : j ∈ List.range ps.length := by
        rw [List.mem_range]; omega
      have := h3 j hjn
      rwa [List.getD_eq_getElem _ _ hj] at this
    · simp only [hd, if_false]
      apply ih
      · rw [rrPass_timeLeft_length, hlen]
      · have hlt : rrMeasure (rrPass ps s).1 < rrMeasure s :=
          rrFold_measure_lt ps (List.range ps.length) (s, true)
            (by simpa using hd) rfl
        omega

theorem foldl_add_toNat (ps : List Process) :
    ∀ a : Nat,
      ps.foldl (fun (a : Nat) (p : Process) => a + p.BurstDuration.toNat) a
        = a + ((ps.map Process.BurstDuration).map Int.toNat).sum := by
  induction ps with
  | nil => intro a; simp
  | cons p ps ih =>
    intro a
    simp only [List.foldl_cons, List.map_cons, List.sum_cons, ih]
    omega

theorem rrLoop_final_stopped (ps : List Process) :
    ∀ t ∈ (rrLoop ps (rrFuel ps) (rrInit ps)).timeLeft, t ≤ 0 := by
  apply rrLoop_stopped
  · simp [rrInit]
  · show rrMeasure (rrInit ps) < rrFuel ps
    rw [rrFuel, foldl_add_toNat ps 0]
    simp [rrMeasure, rrInit]

theorem rrLoop_pres {P : RRState → Prop} (ps : List Process)
    (h : ∀ sb i, P sb.1 → P ((rrVisit ps sb i).1)) :
    ∀ (fuel : Nat) (s : RRState), P s → P (rrLoop ps fuel s) := by
  intro fuel
  induction fuel with
  | zero => intro s hP; exact hP
  | succ fuel ih =>
    intro s hP
    rw [rrLoop]
    have hpass : P (rrPass ps s).1 := rrFold_pres ps h _ (s, true) hP
    split
    · exact hpass
    · exact ih _ hpass

theorem getD_mem (l : List α) (i : Nat) (d : α) (h : i < l.length) :
    l.getD i d ∈ l := by
  rw [List.getD_eq_getElem _ _ h]
  exact List.getElem_mem _

theorem rrVisit_state (ps : List Process) (sb : RRState × Bool) (i : Nat)
    (h0 : 0 < sb.1.timeLeft.getD i 0) :
    (rrVisit ps sb i).1.timeLeft
      = sb.1.timeLeft.set i
          (if 2 < sb.1.timeLeft.getD i 0 then sb.1.timeLeft.getD i 0 - 2 else 0) ∧
    (rrVisit ps sb i).1.currentTime
      = sb.1.currentTime
          + (if 2 < sb.1.timeLeft.getD i 0 then 2 else sb.1.timeLeft.getD i 0) ∧
    (rrVisit ps sb i).1.processData
      = (if 2 < sb.1.timeLeft.getD i 0 then sb.1.processData
         else sb.1.processData.set i
           { getPD sb.1.processData i with
             turnaroundTime := sb.1.currentTime + sb.1.timeLeft.getD i 0
               - (getP ps i).ArrivalTime }) ∧
    ((rrVisit ps sb i).1.gantt = sb.1.gantt ∨
     (rrVisit ps sb i).1.gantt
       = sb.1.gantt ++
          [⟨(getP ps (i - 1)).ProcessID,
            sb.1.currentTime
              + (if 2 < sb.1.timeLeft.getD i 0 then 2 else sb.1.timeLeft.getD i 0)
              - 2,
            sb.1.currentTime
              + (if 2 < sb.1.timeLeft.getD i 0 then 2
                 else sb.1.timeLeft.getD i 0)⟩]) := by
  simp only [rrVisit]
  rw [if_pos h0]
  split_ifs with h1 h2 h3 <;> dsimp only <;>
    refine ⟨by simp [*], by simp [*], by simp [*], ?_⟩ <;>
    first
      | (left; rfl)
      | (right; simp [*])

theorem rrVisit_clock (ps : List Process) (sb : RRState × Bool) (i : Nat)
    (hct : ∀ j, j < ps.length →
      (getP ps j).BurstDuration - sb.1.timeLeft.getD j 0 ≤ sb.1.currentTime) :
    ∀ j, j < ps.length →
      (getP ps j).BurstDuration - (rrVisit ps sb i).1.timeLeft.getD j 0
        ≤ (rrVisit ps sb i).1.currentTime := by
  by_cases h0 : 0 < sb.1.timeLeft.getD i 0
  · have hi : i < sb.1.timeLeft.length := by
      by_contra hi
      rw [List.getD_eq_default _ _ (le_of_not_lt hi)] at h0
      exact lt_irrefl 0 h0
    rcases rrVisit_state ps sb i h0 with ⟨e1, e2, _, _⟩
    intro j hj
    rw [e1, e2]
    rcases eq_or_ne i j with rfl | hij
    · rw [getD_set_self _ _ _ _ hi]
      have := hct i hj
      split_ifs with h2 <;> omega
    · rw [getD_set_ne _ _ _ _ _ hij]
      have := hct j hj
      split_ifs with h2 <;> omega
  · rw [rrVisit_skip ps sb i h0]; exact hct

theorem rrVisit_turn (ps : List Process) (harr : ∀ p ∈ ps, p.ArrivalTime = 0)
    (sb : RRState × Bool) (i : Nat)
    (hlen : sb.1.timeLeft.length = ps.length)
    (hpdlen : sb.1.processData.length = ps.length)
    (hct : ∀ j, j < ps.length →
      (getP ps j).BurstDuration - sb.1.timeLeft.getD j 0 ≤ sb.1.currentTime)
    (hturn : ∀ j, j < ps.length → sb.1.timeLeft.getD j 0 = 0 →
      (getP ps j).BurstDuration ≤ (getPD sb.1.processData j).turnaroundTime) :
    ∀ j, j < ps.length → (rrVisit ps sb i).1.timeLeft.getD j 0 = 0 →
      (getP ps j).BurstDuration
        ≤ (getPD (rrVisit ps sb i).1.processData j).turnaroundTime := by
  by_cases h0 : 0 < sb.1.timeLeft.getD i 0
  · have hi : i < sb.1.timeLeft.length := by
      by_contra hi
      rw [List.getD_eq_default _ _ (le_of_not_lt hi)] at h0
      exact lt_irrefl 0 h0
    have hin : i < ps.length := hlen ▸ hi
    have hpdi : i < sb.1.processData.length := by rw [hpdlen]; exact hin
    have harri : (getP ps i).ArrivalTime = 0 := harr _ (getD_mem ps i default hin)
    have hcti := hct i hin
    rcases rrVisit_state ps sb i h0 with ⟨e1, _, e3, _⟩
    intro j hj hj0
    rw [e1] at hj0
    rw [e3]
    rcases eq_or_ne i j with rfl | hij
    · rw [getD_set_self _ _ _ _ hi] at hj0
      by_cases h2 : 2 < sb.1.timeLeft.getD i 0
      · rw [if_pos h2] at hj0; omega
      · rw [if_neg h2]
        unfold getPD
        rw [getD_set_self _ _ _ _ hpdi]
        show (getP ps i).BurstDuration
          ≤ sb.1.currentTime + sb.1.timeLeft.getD i 0 - (getP ps i).ArrivalTime
        omega
    · rw [getD_set_ne _ _ _ _ _ hij] at hj0
      split_ifs with h2
      · exact hturn j hj hj0
      · unfold getPD
        rw [getD_set_ne _ _ _ _ _ hij]
        exact hturn j hj hj0
  · rw [rrVisit_skip ps sb i h0]; exact hturn

theorem rrVisit_waitInv (ps : List Process) (harr : ∀ p ∈ ps, p.ArrivalTime = 0)
    (sb : RRState × Bool) (i : Nat) (h : rrWaitInv ps sb.1) :
    rrWaitInv ps (rrVisit ps sb i).1 := by
  rcases h with ⟨hlen, hpdlen, hnn, hct, hturn⟩
  exact ⟨by rw [rrVisit_timeLeft_length]; exact hlen,
         by rw [rrVisit_processData_length]; exact hpdlen,
         rrVisit_tl_nonneg ps sb i hnn,
         rrVisit_clock ps sb i hct,
         rrVisit_turn ps harr sb i hlen hpdlen hct hturn⟩

theorem rrVisit_ganttInv (ps : List Process) (sb : RRState × Bool) (i : Nat)
    (h : rrGanttInv sb.1) : rrGanttInv (rrVisit ps sb i).1 := by
  rcases h with ⟨hpw, hbd⟩
  by_cases h0 : 0 < sb.1.timeLeft.getD i 0
  · have htl : (0 : Int) < sb.1.timeLeft.getD i 0 := h0
    rcases rrVisit_state ps sb i h0 with ⟨_, e2, _, e4 | e4⟩
    · constructor
      · rw [e4]; exact hpw
      · intro sl hsl
        rw [e4] at hsl
        rw [e2]
        have := hbd sl hsl
        split_ifs with h2 <;> omega
    · constructor
      · rw [e4, List.pairwise_append]
        refine ⟨hpw, List.pairwise_singleton _ _, ?_⟩
        intro a ha b hb
        rw [List.mem_singleton] at hb
        subst hb
        show a.Start ≤ _
        have := hbd a ha
        dsimp only
        split_ifs with h2 <;> omega
      · intro sl hsl
        rw [e4] at hsl
        rw [e2]
        rcases List.mem_append.mp hsl with hsl | hsl
        · have := hbd sl hsl
          split_ifs with h2 <;> omega
        · rw [List.mem_singleton] at hsl
          subst hsl
          dsimp only
          split_ifs with h2 <;> omega
  · rw [rrVisit_skip ps sb i h0]; exact ⟨hpw, hbd⟩

theorem rrFinal_processData (ps : List Process) :
    (rrFinal ps).processData = (rrLoop ps (rrFuel ps) (rrInit ps)).processData := by
  unfold rrFinal
  split <;> rfl

theorem rrFinal_timeLeft (ps : List Process) :
    (rrFinal ps).timeLeft = (rrLoop ps (rrFuel ps) (rrInit ps)).timeLeft := by
  unfold rrFinal
  split <;> rfl

theorem rrFinal_currentTime (ps : List Process) :
    (rrFinal ps).currentTime = (rrLoop ps (rrFuel ps) (rrInit ps)).currentTime := by
  unfold rrFinal
  split <;> rfl

/-- At the end of the round-robin loop (all-zero arrivals, positive bursts)
every remaining time is exactly 0 and every recorded turnaround is at least
the process's burst. -/
theorem rrLoop_waitInv (ps : List Process)
    (harr : ∀ p ∈ ps, p.ArrivalTime = 0)
    (hburst : ∀ p ∈ ps, 0 < p.BurstDuration) :
    rrWaitInv ps (rrLoop ps (rrFuel ps) (rrInit ps)) := by
  apply rrLoop_pres ps (fun sb i h => rrVisit_waitInv ps harr sb i h)
  refine ⟨by simp [rrInit], by simp [rrInit], ?_, ?_, ?_⟩
  · intro t ht
    rcases List.mem_map.mp ht with ⟨p, hp, rfl⟩
    exact le_of_lt (hburst p hp)
  · intro j hj
    show (getP ps j).BurstDuration - (ps.map Process.BurstDuration).getD j 0 ≤ 0
    rw [getD_map_burst ps j hj]
    omega
  · intro j hj hj0
    have hb : 0 < (getP ps j).BurstDuration :=
      hburst _ (getD_mem ps j default hj)
    have hz : (ps.map Process.BurstDuration).getD j 0 = 0 := hj0
    rw [getD_map_burst ps j hj] at hz
    omega

theorem RR_wait_nonneg (processes : List Process)
    (harr : ∀ p ∈ processes, p.ArrivalTime = 0)
    (hburst : ∀ p ∈ processes, 0 < p.BurstDuration) :
    (RRSchedule processes).schedule.all (fun r => decide (0 ≤ r.wait)) = true := by
  have hmem : ∀ p : Process, p ∈ rrSort processes ↔ p ∈ processes :=
    fun p => (List.perm_insertionSort arrivalLE processes).mem_iff
  have harr' : ∀ p ∈ rrSort processes, p.ArrivalTime = 0 :=
    fun p hp => harr p ((hmem p).mp hp)
  have hburst' : ∀ p ∈ rrSort processes, 0 < p.BurstDuration :=
    fun p hp => hburst p ((hmem p).mp hp)
  have hinv := rrLoop_waitInv (rrSort processes) harr' hburst'
  rcases hinv with ⟨hlen, _, hnn, _, hturn⟩
  have hstop := rrLoop_final_stopped (rrSort processes)
  rw [RRSchedule_schedule, List.all_eq_true]
  intro r hr
  rcases List.mem_map.mp hr with ⟨i, hi, rfl⟩
  rw [List.mem_range] at hi
  have htl0 : (rrLoop (rrSort processes) (rrFuel (rrSort processes))
      (rrInit (rrSort processes))).timeLeft.getD i 0 = 0 := by
    have hil : i < (rrLoop (rrSort processes) (rrFuel (rrSort processes))
        (rrInit (rrSort processes))).timeLeft.length := by rw [hlen]; exact hi
    have hm := getD_mem _ i 0 hil
    have h1 := hstop _ hm
    have h2 := hnn _ hm
    omega
  have hbt := hturn i hi htl0
  show (decide (0 ≤ (getPD (rrFinal (rrSort processes)).processData i).turnaroundTime
      - (getP (rrSort processes) i).BurstDuration)) = true
  rw [rrFinal_processData]
  simp only [decide_eq_true_eq]
  omega

/-- Claim C3's positive parts: SJF and SJF-priority report non-negative
waiting times on every input; FCFS and round-robin do so when every arrival
time is zero (with positive bursts for round-robin). -/
theorem sjf_rows_wait_nonneg (usePrio : Bool) (ps : List Process) :
    (sjfResult ps
        (sjfRun usePrio ps (sjfFuel ps) (sjfInit ps))).schedule.all
      (fun r => decide (0 ≤ r.wait)) = true := by
  rw [sjfResult_schedule, List.all_eq_true]
  intro r hr
  rcases List.mem_map.mp hr with ⟨i, _, rfl⟩
  simp only [decide_eq_true_eq]
  exact sjfRun_wait_nonneg usePrio ps (sjfFuel ps) (sjfInit ps)
    (sjfInit_wait_nonneg ps) i

/-! ## Claim C3

The claim fails: FCFS (and round-robin) assign a *negative* waiting time to
a process that arrives after the processor falls idle — e.g. a single process
with arrival 5 and burst 3 gets waiting time `0 - 5 = -5` from FCFS, and
round-robin records turnaround `3 - 5 = -2`, hence waiting time `-5`.  The
shortest-job schedulers only ever increment waiting times, so their waits are
always non-negative; FCFS and round-robin waits are non-negative when every
process arrives at time 0. -/

/-- Claim C3, counterexample: on the valid input of a single process with
arrival 5 and burst 3 (non-empty, positive burst, non-negative arrival) both
FCFS and round-robin report waiting time −5. -/
theorem C3_counterexample :
    ((FCFSSchedule [⟨1, 5, 3, 0⟩]).schedule.getD 0 default).wait = -5 ∧
    ((RRSchedule [⟨1, 5, 3, 0⟩]).schedule.getD 0 default).wait = -5 := by
  constructor <;> decide

/-- Claim C3 as amended: `SJFSchedule` and `SJFPrioritySchedule` report
waiting time ≥ 0 for every process on every input; `FCFSSchedule` and
`RRSchedule` report waiting time ≥ 0 when every process has arrival time 0
(and, for round-robin, positive burst). -/
theorem C3_wait_nonneg (ps qs : List Process)
    (hq0 : ∀ p ∈ qs, p.ArrivalTime = 0) (hqb : ∀ p ∈ qs, 0 < p.BurstDuration) :
    ((SJFSchedule ps).schedule.all (fun r => decide (0 ≤ r.wait)) = true) ∧
    ((SJFPrioritySchedule ps).schedule.all (fun r => decide (0 ≤ r.wait)) = true) ∧
    ((FCFSSchedule qs).schedule.all (fun r => decide (0 ≤ r.wait)) = true) ∧
    ((RRSchedule qs).schedule.all (fun r => decide (0 ≤ r.wait)) = true) := by
  refine ⟨sjf_rows_wait_nonneg false ps, sjf_rows_wait_nonneg true ps, ?_, ?_⟩
  · rw [FCFSSchedule_schedule, List.all_eq_true]
    intro r hr
    have hall := fcfsRows_wait_zero qs FCFSinit hq0 rfl
    rw [List.all_eq_true] at hall
    have := hall r hr
    simp only [beq_iff_eq] at this
    simp only [decide_eq_true_eq, this, le_refl]
  · exact RR_wait_nonneg qs hq0 hqb

/-- Witness for C3 at concrete inputs. -/
theorem C3_witness :
    ((SJFSchedule [⟨1, 0, 5, 0⟩, ⟨2, 1, 3, 0⟩, ⟨3, 2, 1, 0⟩]).schedule.all
      (fun r => decide (0 ≤ r.wait)) = true) ∧
    ((SJFPrioritySchedule [⟨1, 0, 5, 0⟩, ⟨2, 1, 3, 0⟩, ⟨3, 2, 1, 0⟩]).schedule.all
      (fun r => decide (0 ≤ r.wait)) = true) ∧
    ((FCFSSchedule [⟨1, 0, 4, 0⟩, ⟨2, 0, 2, 0⟩]).schedule.all
      (fun r => decide (0 ≤ r.wait)) = true) ∧
    ((RRSchedule [⟨1, 0, 4, 0⟩, ⟨2, 0, 2, 0⟩]).schedule.all
      (fun r => decide (0 ≤ r.wait)) = true) :=
  C3_wait_nonneg [⟨1, 0, 5, 0⟩, ⟨2, 1, 3, 0⟩, ⟨3, 2, 1, 0⟩]
    [⟨1, 0, 4, 0⟩, ⟨2, 0, 2, 0⟩] (by decide) (by decide)

/-! ## Claim C5: Gantt slice ordering -/

theorem sjfStep_ganttInv (usePrio : Bool) (ps : List Process) (s : SJFState)
    (h : sjfGanttInv s) : sjfGanttInv (sjfStep usePrio ps s) := by
  rcases h with ⟨ht, hst⟩
  rw [sjfStep_def]
  split_ifs with hsw
  · constructor
    · show tiledEnd 0 (s.gantt ++ [⟨(s.current : Int) + 1, s.start, s.time⟩]) s.time
      exact tiledEnd_append ht hst
    · show s.time ≤ s.time + 1
      omega
  · refine ⟨ht, ?_⟩
    show s.start ≤ s.time + 1
    omega

theorem sjfRun_ganttInv (usePrio : Bool) (ps : List Process) (fuel : Nat) :
    ∀ s : SJFState, sjfGanttInv s → sjfGanttInv (sjfRun usePrio ps fuel s) := by
  induction fuel with
  | zero => intro s h; exact h
  | succ fuel ih =>
    intro s h
    rw [sjfRun]
    split
    · exact h
    · exact ih _ (sjfStep_ganttInv usePrio ps s h)

theorem SJFSchedule_gantt (ps : List Process) :
    (SJFSchedule ps).gantt
      = (sjfRun false ps (sjfFuel ps) (sjfInit ps)).gantt := rfl

theorem SJFPrioritySchedule_gantt (ps : List Process) :
    (SJFPrioritySchedule ps).gantt
      = (sjfRun true ps (sjfFuel ps) (sjfInit ps)).gantt := rfl

theorem sjf_gantt_tiled (usePrio : Bool) (ps : List Process) :
    ∃ b, tiledEnd 0 (sjfRun usePrio ps (sjfFuel ps) (sjfInit ps)).gantt b := by
  have h := sjfRun_ganttInv usePrio ps (sjfFuel ps) (sjfInit ps)
    ⟨rfl, le_refl 0⟩
  exact ⟨_, h.1⟩

theorem fcfsSlices_tiledEnd (ps : List Process) (acc : FCFSAcc)
    (ha : ∀ p ∈ ps, 0 < p.ArrivalTime) (hb : ∀ p ∈ ps, 0 ≤ p.BurstDuration) :
    tiledEnd acc.serviceTime (fcfsSlices acc ps)
      (acc.serviceTime + (ps.map Process.BurstDuration).sum) := by
  induction ps generalizing acc with
  | nil => show acc.serviceTime = acc.serviceTime + _; simp
  | cons p ps ih =>
    have hp := ha p (List.mem_cons_self p ps)
    have hpb := hb p (List.mem_cons_self p ps)
    refine ⟨?_, ?_, ?_⟩
    · show fcfsWaitOf acc p + p.ArrivalTime = acc.serviceTime
      rw [fcfsWaitOf, if_pos hp]
      ring
    · show acc.serviceTime ≤ acc.serviceTime + p.BurstDuration
      omega
    · have key := ih (FCFSbody acc p)
        (fun q hq => ha q (List.mem_cons_of_mem p hq))
        (fun q hq => hb q (List.mem_cons_of_mem p hq))
      rw [FCFSbody_serviceTime] at key
      show tiledEnd (acc.serviceTime + p.BurstDuration) (fcfsSlices (FCFSbody acc p) ps) _
      rw [List.map_cons, List.sum_cons, show acc.serviceTime +
        (p.BurstDuration + (ps.map Process.BurstDuration).sum)
          = acc.serviceTime + p.BurstDuration + (ps.map Process.BurstDuration).sum
        from by ring]
      exact key

theorem fcfs_gantt_tiled (p0 : Process) (rest : List Process)
    (h0 : 0 ≤ p0.ArrivalTime) (hb : ∀ p ∈ p0 :: rest, 0 ≤ p.BurstDuration)
    (ha : ∀ p ∈ rest, 0 < p.ArrivalTime) :
    tiledEnd 0 ((FCFSSchedule (p0 :: rest)).gantt)
      (((p0 :: rest).map Process.BurstDuration).sum) := by
  rw [FCFSSchedule_gantt]
  refine ⟨?_, ?_, ?_⟩
  · show fcfsWaitOf FCFSinit p0 + p0.ArrivalTime = 0
    rw [fcfsWaitOf]
    split_ifs with h
    · show (0 : Int) - p0.ArrivalTime + p0.ArrivalTime = 0
      ring
    · show (0 : Int) + p0.ArrivalTime = 0
      omega
  · show (0 : Int) ≤ 0 + p0.BurstDuration
    have := hb p0 (List.mem_cons_self p0 rest)
    omega
  · have key := fcfsSlices_tiledEnd rest (FCFSbody FCFSinit p0) ha
      (fun q hq => hb q (List.mem_cons_of_mem p0 hq))
    rw [FCFSbody_serviceTime] at key
    show tiledEnd ((0 : Int) + p0.BurstDuration) (fcfsSlices (FCFSbody FCFSinit p0) rest) _
    rw [List.map_cons, List.sum_cons, show p0.BurstDuration +
        (rest.map Process.BurstDuration).sum
          = (0 : Int) + p0.BurstDuration + (rest.map Process.BurstDuration).sum
        from by ring]
    exact key

theorem RRSchedule_gantt (processes : List Process) :
    (RRSchedule processes).gantt = (rrFinal (rrSort processes)).gantt := rfl

theorem rrLoop_ganttInv (ps : List Process) :
    rrGanttInv (rrLoop ps (rrFuel ps) (rrInit ps)) := by
  apply rrLoop_pres ps (fun sb i h => rrVisit_ganttInv ps sb i h)
  exact ⟨List.Pairwise.nil, fun sl hsl => absurd hsl (List.not_mem_nil sl)⟩

theorem RR_gantt_sorted (processes : List Process) :
    (RRSchedule processes).gantt.Pairwise startLE := by
  rw [RRSchedule_gantt]
  rcases rrLoop_ganttInv (rrSort processes) with ⟨hpw, hbd⟩
  have hstop := rrLoop_final_stopped (rrSort processes)
  unfold rrFinal
  split
  · rw [List.pairwise_append]
    refine ⟨hpw, List.pairwise_singleton _ _, ?_⟩
    intro a ha b hb
    rw [List.mem_singleton] at hb
    subst hb
    have h1 := hbd a ha
    have h2 : (rrLoop (rrSort processes) (rrFuel (rrSort processes))
        (rrInit (rrSort processes))).timeLeft.getD ((rrSort processes).length - 1) 0 ≤ 0 := by
      by_cases hlt : (rrSort processes).length - 1
          < (rrLoop (rrSort processes) (rrFuel (rrSort processes))
              (rrInit (rrSort processes))).timeLeft.length
      · exact hstop _ (getD_mem _ _ 0 hlt)
      · rw [List.getD_eq_default _ _ (le_of_not_lt hlt)]
    show a.Start ≤ _
    dsimp only
    omega
  · exact hpw

/-- Claim C5, counterexample: FCFS on two zero-arrival processes emits
overlapping slices ([0,2) and [0,4)); FCFS on (arrival 3, then arrival 0)
emits slices whose starts are out of order (0 then −3); round-robin on three
unit-burst processes emits overlapping slices ([0,2) and [1,3)). -/
theorem C5_counterexample :
    (¬ (((FCFSSchedule [⟨1, 0, 2, 0⟩, ⟨2, 0, 2, 0⟩]).gantt.getD 0 default).Stop
          ≤ ((FCFSSchedule [⟨1, 0, 2, 0⟩, ⟨2, 0, 2, 0⟩]).gantt.getD 1 default).Start ∨
        ((FCFSSchedule [⟨1, 0, 2, 0⟩, ⟨2, 0, 2, 0⟩]).gantt.getD 1 default).Stop
          ≤ ((FCFSSchedule [⟨1, 0, 2, 0⟩, ⟨2, 0, 2, 0⟩]).gantt.getD 0 default).Start)) ∧
    (((FCFSSchedule [⟨1, 3, 1, 0⟩, ⟨2, 0, 1, 0⟩]).gantt.getD 1 default).Start
      < ((FCFSSchedule [⟨1, 3, 1, 0⟩, ⟨2, 0, 1, 0⟩]).gantt.getD 0 default).Start) ∧
    (¬ (((RRSchedule [⟨1, 0, 1, 0⟩, ⟨2, 0, 1, 0⟩, ⟨3, 0, 1, 0⟩]).gantt.getD 0 default).Stop
          ≤ ((RRSchedule [⟨1, 0, 1, 0⟩, ⟨2, 0, 1, 0⟩, ⟨3, 0, 1, 0⟩]).gantt.getD 1 default).Start ∨
        ((RRSchedule [⟨1, 0, 1, 0⟩, ⟨2, 0, 1, 0⟩, ⟨3, 0, 1, 0⟩]).gantt.getD 1 default).Stop
          ≤ ((RRSchedule [⟨1, 0, 1, 0⟩, ⟨2, 0, 1, 0⟩, ⟨3, 0, 1, 0⟩]).gantt.getD 0 default).Start)) :=
  ⟨by decide, by decide, by decide⟩

/-- Claim C5 as amended: `SJFSchedule` and `SJFPrioritySchedule` always emit
Gantt slices sorted by start and pairwise non-overlapping (each slice stops
no later than the next starts); `FCFSSchedule` does so provided every
process after the first has strictly positive arrival time (with
non-negative bursts and first arrival ≥ 0); `RRSchedule` always emits slices
sorted by start, but they can overlap. -/
theorem C5_gantt_ordering (ps : List Process) (p0 : Process) (rest : List Process)
    (h0 : 0 ≤ p0.ArrivalTime) (hb : ∀ p ∈ p0 :: rest, 0 ≤ p.BurstDuration)
    (ha : ∀ p ∈ rest, 0 < p.ArrivalTime) :
    ((SJFSchedule ps).gantt.Pairwise startLE ∧
      (SJFSchedule ps).gantt.Pairwise beforeSlice) ∧
    ((SJFPrioritySchedule ps).gantt.Pairwise startLE ∧
      (SJFPrioritySchedule ps).gantt.Pairwise beforeSlice) ∧
    ((FCFSSchedule (p0 :: rest)).gantt.Pairwise startLE ∧
      (FCFSSchedule (p0 :: rest)).gantt.Pairwise beforeSlice) ∧
    (RRSchedule ps).gantt.Pairwise startLE := by
  refine ⟨?_, ?_, ?_, RR_gantt_sorted ps⟩
  · rcases sjf_gantt_tiled false ps with ⟨b, hTiled⟩
    rw [SJFSchedule_gantt]
    have hbefore := tiledEnd_pairwise_before hTiled
    exact ⟨pairwise_startLE_of_before hbefore (tiledEnd_start_stop hTiled), hbefore⟩
  · rcases sjf_gantt_tiled true ps with ⟨b, hTiled⟩
    rw [SJFPrioritySchedule_gantt]
    have hbefore := tiledEnd_pairwise_before hTiled
    exact ⟨pairwise_startLE_of_before hbefore (tiledEnd_start_stop hTiled), hbefore⟩
  · have hTiled := fcfs_gantt_tiled p0 rest h0 hb ha
    have hbefore := tiledEnd_pairwise_before hTiled
    exact ⟨pairwise_startLE_of_before hbefore (tiledEnd_start_stop hTiled), hbefore⟩

/-- Witness for C5 at concrete inputs. -/
theorem C5_witness :
    ((SJFSchedule [⟨1, 0, 5, 0⟩, ⟨2, 1, 3, 0⟩, ⟨3, 2, 1, 0⟩]).gantt.Pairwise startLE ∧
      (SJFSchedule [⟨1, 0, 5, 0⟩, ⟨2, 1, 3, 0⟩, ⟨3, 2, 1, 0⟩]).gantt.Pairwise beforeSlice) ∧
    ((SJFPrioritySchedule [⟨1, 0, 5, 0⟩, ⟨2, 1, 3, 0⟩, ⟨3, 2, 1, 0⟩]).gantt.Pairwise startLE ∧
      (SJFPrioritySchedule [⟨1, 0, 5, 0⟩, ⟨2, 1, 3, 0⟩, ⟨3, 2, 1, 0⟩]).gantt.Pairwise beforeSlice) ∧
    ((FCFSSchedule [⟨1, 0, 5, 0⟩, ⟨2, 1, 3, 0⟩, ⟨3, 2, 1, 0⟩]).gantt.Pairwise startLE ∧
      (FCFSSchedule [⟨1, 0, 5, 0⟩, ⟨2, 1, 3, 0⟩, ⟨3, 2, 1, 0⟩]).gantt.Pairwise beforeSlice) ∧
    (RRSchedule [⟨1, 0, 5, 0⟩, ⟨2, 1, 3, 0⟩, ⟨3, 2, 1, 0⟩]).gantt.Pairwise startLE :=
  C5_gantt_ordering [⟨1, 0, 5, 0⟩, ⟨2, 1, 3, 0⟩, ⟨3, 2, 1, 0⟩] ⟨1, 0, 5, 0⟩
    [⟨2, 1, 3, 0⟩, ⟨3, 2, 1, 0⟩] (by decide)
    (by intro p hp; fin_cases hp <;> decide)
    (by intro p hp; fin_cases hp <;> decide)

/-! ## Claim C7: termination of the simulation loops -/

theorem foldl_max_ge_init (ps : List Process) :
    ∀ a : Int, a ≤ ps.foldl (fun (m : Int) (p : Process) => max m p.ArrivalTime) a := by
  induction ps with
  | nil => intro a; exact le_refl a
  | cons p ps ih =>
    intro a
    exact le_trans (le_max_left a p.ArrivalTime) (ih (max a p.ArrivalTime))

theorem le_maxArrival (ps : List Process) :
    ∀ p ∈ ps, p.ArrivalTime ≤ maxArrival ps := by
  have aux : ∀ (l : List Process) (a : Int) (p : Process), p ∈ l →
      p.ArrivalTime ≤ l.foldl (fun (m : Int) (q : Process) => max m q.ArrivalTime) a := by
    intro l
    induction l with
    | nil => intro a p hp; cases hp
    | cons q l ih =>
      intro a p hp
      rcases List.mem_cons.mp hp with rfl | hp
      · exact le_trans (le_max_right a p.ArrivalTime) (foldl_max_ge_init l _)
      · exact ih _ p hp
  intro p hp
  exact aux ps 0 p hp

theorem maxArrival_nonneg (ps : List Process) : 0 ≤ maxArrival ps :=
  foldl_max_ge_init ps 0

theorem noMore_false_exists (pd : List ProcessData)
    (h : noMoreProcesses pd = false) :
    ∃ j, j < pd.length ∧ (getPD pd j).exit = 0 := by
  unfold noMoreProcesses at h
  rw [List.all_eq_false] at h
  rcases h with ⟨x, hx, hpx⟩
  rcases List.mem_iff_getElem.mp hx with ⟨j, hj, rfl⟩
  refine ⟨j, hj, ?_⟩
  unfold getPD
  rw [List.getD_eq_getElem _ _ hj]
  simpa using hpx

theorem scanFold_snd_mono (P : Nat → Bool) :
    ∀ (l : List Nat) (acc : Nat × Bool), acc.2 = true →
      (l.foldl (fun acc i => if P i then (i, true) else acc) acc).2 = true := by
  intro l
  induction l with
  | nil => intro acc h; exact h
  | cons i l ih =>
    intro acc h
    rw [List.foldl_cons]
    by_cases hP : P i = true
    · exact ih _ (by rw [if_pos hP])
    · rw [if_neg hP]; exact ih _ h

theorem scanFold_false (P : Nat → Bool) :
    ∀ (l : List Nat) (acc : Nat × Bool),
      (l.foldl (fun acc i => if P i then (i, true) else acc) acc).2 = false →
      (l.foldl (fun acc i => if P i then (i, true) else acc) acc) = acc ∧
        ∀ i ∈ l, P i = false := by
  intro l
  induction l with
  | nil => intro acc h; exact ⟨rfl, by intro i hi; cases hi⟩
  | cons i l ih =>
    intro acc h
    rw [List.foldl_cons] at h ⊢
    by_cases hP : P i = true
    · rw [if_pos hP] at h
      have := scanFold_snd_mono P l (i, true) rfl
      rw [this] at h
      cases h
    · rw [if_neg hP] at h ⊢
      rcases ih acc h with ⟨h1, h2⟩
      refine ⟨h1, ?_⟩
      intro j hj
      rcases List.mem_cons.mp hj with rfl | hj
      · exact Bool.eq_false_iff.mpr hP
      · exact h2 j hj

theorem scanFold_true (P : Nat → Bool) :
    ∀ (l : List Nat) (acc : Nat × Bool),
      (l.foldl (fun acc i => if P i then (i, true) else acc) acc) = acc ∨
      (∃ i ∈ l, P i = true ∧
        (l.foldl (fun acc i => if P i then (i, true) else acc) acc).1 = i) := by
  intro l
  induction l with
  | nil => intro acc; left; rfl
  | cons i l ih =>
    intro acc
    rw [List.foldl_cons]
    by_cases hP : P i = true
    · rw [if_pos hP]
      rcases ih (i, true) with h | ⟨j, hj, hPj, hj1⟩
      · right
        exact ⟨i, List.mem_cons_self i l, hP, by rw [h]⟩
      · right
        exact ⟨j, List.mem_cons_of_mem i hj, hPj, hj1⟩
    · rw [if_neg hP]
      rcases ih acc with h | ⟨j, hj, hPj, hj1⟩
      · left; exact h
      · right
        exact ⟨j, List.mem_cons_of_mem i hj, hPj, hj1⟩

theorem sjfScan_found (usePrio : Bool) (ps : List Process) (s : SJFState)
    (h : (sjfScan usePrio ps s).2 = true) :
    (sjfScan usePrio ps s).1 < ps.length ∧
      sjfCand usePrio ps s (sjfScan usePrio ps s).1 = true := by
  rcases scanFold_true (sjfCand usePrio ps s) (List.range ps.length) (0, false)
    with heq | ⟨j, hj, hPj, hj1⟩
  · rw [sjfScan] at h
    rw [heq] at h
    cases h
  · rw [sjfScan] at h ⊢
    rw [hj1]
    rw [List.mem_range] at hj
    exact ⟨hj, hPj⟩

theorem sjfScan_not_found (usePrio : Bool) (ps : List Process) (s : SJFState)
    (h : (sjfScan usePrio ps s).2 = false) :
    (sjfScan usePrio ps s).1 = 0 ∧
      ∀ i, i < ps.length → sjfCand usePrio ps s i = false := by
  rcases scanFold_false (sjfCand usePrio ps s) (List.range ps.length) (0, false)
    (by rw [sjfScan] at h; exact h) with ⟨h1, h2⟩
  constructor
  · rw [sjfScan, h1]
  · intro i hi
    exact h2 i (List.mem_range.mpr hi)

theorem sjfCand_exit (usePrio : Bool) (ps : List Process) (s : SJFState)
    (i : Nat) (h : sjfCand usePrio ps s i = true) :
    (getPD s.pd i).exit = 0 ∧ (getP ps i).ArrivalTime ≤ s.time := by
  rw [sjfCand, Bool.and_eq_true, decide_eq_true_eq] at h
  exact h.1

theorem sjfCand_of_low (usePrio : Bool) (ps : List Process) (s : SJFState)
    (i : Nat) (h1 : (getPD s.pd i).exit = 0)
    (h2 : (getP ps i).ArrivalTime ≤ s.time)
    (h3 : (getP s.temp s.current).BurstDuration < 1) :
    sjfCand usePrio ps s i = true := by
  rw [sjfCand, Bool.and_eq_true, decide_eq_true_eq]
  refine ⟨⟨h1, h2⟩, ?_⟩
  rw [Bool.or_eq_true, Bool.or_eq_true]
  left; right
  exact decide_eq_true h3

theorem getP_sjfTick_ne (s : SJFState) (i : Nat) (hne : i ≠ s.current) :
    getP (sjfTick s).temp i = getP s.temp i := by
  by_cases hi : i < s.temp.length
  · rw [getP_sjfTick s i hi, if_neg]
    intro hcon
    exact hne hcon.2
  · rw [getP_sjfTick_ge s i (le_of_not_lt hi)]
    unfold getP
    rw [List.getD_eq_default _ _ (le_of_not_lt hi)]

theorem getPD_sjfTick_exit_ne (s : SJFState) (i : Nat) (hne : i ≠ s.current) :
    (getPD (sjfTick s).pd i).exit = (getPD s.pd i).exit := by
  by_cases hi : i < s.pd.length
  · rw [getPD_sjfTick s i hi]
    split_ifs with h1 h2 h3
    · rfl
    · exact absurd h3.1 hne
    · rfl
    · rfl
  · rw [getPD_sjfTick_ge s i (le_of_not_lt hi)]
    unfold getPD
    rw [List.getD_eq_default _ _ (le_of_not_lt hi)]

theorem getP_sjfTick_cur (s : SJFState) (hi : s.current < s.temp.length) :
    (getP (sjfTick s).temp s.current).BurstDuration
      = (if (getP s.temp s.current).ArrivalTime < s.time then
          (getP s.temp s.current).BurstDuration - 1
        else (getP s.temp s.current).BurstDuration) := by
  rw [getP_sjfTick s s.current hi]
  by_cases hA : (getP s.temp s.current).ArrivalTime < s.time
  · rw [if_pos (⟨hA, rfl⟩ :
      (getP s.temp s.current).ArrivalTime < s.time ∧ s.current = s.current),
      if_pos hA]
  · rw [if_neg (fun hcon => hA hcon.1), if_neg hA]

theorem getP_sjfTick_arrival (s : SJFState) (i : Nat) :
    (getP (sjfTick s).temp i).ArrivalTime = (getP s.temp i).ArrivalTime := by
  by_cases hi : i < s.temp.length
  · rw [getP_sjfTick s i hi]
    split_ifs <;> rfl
  · rw [getP_sjfTick_ge s i (le_of_not_lt hi)]
    unfold getP
    rw [List.getD_eq_default _ _ (le_of_not_lt hi)]

theorem getP_sjfTick_burst_le (s : SJFState) (i : Nat) :
    (getP (sjfTick s).temp i).BurstDuration ≤ (getP s.temp i).BurstDuration := by
  by_cases hi : i < s.temp.length
  · rw [getP_sjfTick s i hi]
    split_ifs
    · show (getP s.temp i).BurstDuration - 1 ≤ (getP s.temp i).BurstDuration
      omega
    · exact le_refl _
  · rw [getP_sjfTick_ge s i (le_of_not_lt hi)]
    unfold getP
    rw [List.getD_eq_default _ _ (le_of_not_lt hi)]

theorem getPD_sjfTick_exit_cur (s : SJFState) (hi : s.current < s.pd.length) :
    (getPD (sjfTick s).pd s.current).exit
      = (if (getP s.temp s.current).ArrivalTime < s.time ∧
            (getP s.temp s.current).BurstDuration - 1 = 0 then s.time
         else (getPD s.pd s.current).exit) := by
  rw [getPD_sjfTick s s.current hi]
  by_cases h1 : (getP s.temp s.current).ArrivalTime < s.time
  · rw [if_pos h1]
    rw [if_neg (by intro hcon; exact hcon.1 rfl)]
    by_cases h2 : (getP s.temp s.current).BurstDuration - 1 = 0
    · rw [if_pos ⟨rfl, h2⟩, if_pos ⟨h1, h2⟩]
    · rw [if_neg (by intro hcon; exact h2 hcon.2),
          if_neg (by intro hcon; exact h2 hcon.2)]
  · rw [if_neg h1, if_neg (by intro hcon; exact h1 hcon.1)]

/-- The simulation step preserves the SJF loop invariant on valid inputs. -/
theorem sjfStep_inv (usePrio : Bool) (ps : List Process) (s : SJFState)
    (ha : ∀ p ∈ ps, 0 ≤ p.ArrivalTime)
    (hInv : sjfInv ps s) : sjfInv ps (sjfStep usePrio ps s) := by
  obtain ⟨hlt, hlp, hcur, harr, hble, hunf, hfin, htime⟩ := hInv
  have hstemp := sjfStep_temp usePrio ps s
  have hspd := sjfStep_pd usePrio ps s
  have hstime := sjfStep_time usePrio ps s
  have harrcur : 0 ≤ (getP s.temp s.current).ArrivalTime := by
    rw [harr s.current hcur]
    exact ha _ (getD_mem ps s.current default hcur)
  refine ⟨?_, ?_, ?_, ?_, ?_, ?_, ?_, ?_⟩
  · rw [hstemp, sjfTick_temp_length]; exact hlt
  · rw [hspd, sjfTick_pd_length]; exact hlp
  · rw [sjfStep_def]
    split_ifs with hsw
    · show (sjfScan usePrio ps (sjfTick s)).1 < ps.length
      by_cases hf : (sjfScan usePrio ps (sjfTick s)).2 = true
      · exact (sjfScan_found usePrio ps (sjfTick s) hf).1
      · rw [(sjfScan_not_found usePrio ps (sjfTick s)
          (Bool.eq_false_iff.mpr hf)).1]
        omega
    · exact hcur
  · intro i hi
    rw [hstemp, getP_sjfTick_arrival]
    exact harr i hi
  · intro i hi
    rw [hstemp]
    exact le_trans (getP_sjfTick_burst_le s i) (hble i hi)
  · intro i hi hexit
    rw [hspd] at hexit
    rw [hstemp]
    rcases eq_or_ne i s.current with rfl | hne
    · have hwit : s.current < s.temp.length := by rw [hlt]; exact hi
      have hwip : s.current < s.pd.length := by rw [hlp]; exact hi
      rw [getPD_sjfTick_exit_cur s hwip] at hexit
      rw [getP_sjfTick_cur s hwit]
      by_cases hA : (getP s.temp s.current).ArrivalTime < s.time
      · rw [if_pos hA]
        by_cases hz : (getP s.temp s.current).BurstDuration - 1 = 0
        · rw [if_pos ⟨hA, hz⟩] at hexit
          omega
        · rw [if_neg (fun hc => hz hc.2)] at hexit
          have := hunf s.current hi hexit
          omega
      · rw [if_neg hA]
        rw [if_neg (fun hc => hA hc.1)] at hexit
        exact hunf s.current hi hexit
    · rw [getPD_sjfTick_exit_ne s i hne] at hexit
      rw [getP_sjfTick_ne s i hne]
      exact hunf i hi hexit
  · intro i hi hexit
    rw [hspd] at hexit
    rw [hstemp]
    rcases eq_or_ne i s.current with rfl | hne
    · have hwit : s.current < s.temp.length := by rw [hlt]; exact hi
      have hwip : s.current < s.pd.length := by rw [hlp]; exact hi
      rw [getPD_sjfTick_exit_cur s hwip] at hexit
      rw [getP_sjfTick_cur s hwit]
      by_cases hA : (getP s.temp s.current).ArrivalTime < s.time
      · rw [if_pos hA]
        by_cases hz : (getP s.temp s.current).BurstDuration - 1 = 0
        · omega
        · rw [if_neg (fun hc => hz hc.2)] at hexit
          have := hfin s.current hi hexit
          omega
      · rw [if_neg hA]
        rw [if_neg (fun hc => hA hc.1)] at hexit
        exact hfin s.current hi hexit
    · rw [getPD_sjfTick_exit_ne s i hne] at hexit
      rw [getP_sjfTick_ne s i hne]
      exact hfin i hi hexit
  · rw [hstime]; omega

theorem sjfTick_time (s : SJFState) : (sjfTick s).time = s.time := rfl

theorem sjfTick_current (s : SJFState) : (sjfTick s).current = s.current := rfl

theorem sjfStep_current (usePrio : Bool) (ps : List Process) (s : SJFState) :
    (sjfStep usePrio ps s).current
      = (if sjfFinished s || (sjfScan usePrio ps (sjfTick s)).2 then
          (sjfScan usePrio ps (sjfTick s)).1
        else s.current) := by
  rw [sjfStep_def]
  split <;> rfl

theorem sjfMeasure_nonneg (ps : List Process) (s : SJFState)
    (hInv : sjfInv ps s) : 0 ≤ sjfMeasure ps.length s := by
  obtain ⟨_, _, _, _, _, hunf, _, _⟩ := hInv
  rw [sjfMeasure]
  have h1 : (0 : Int) ≤ (Finset.range ps.length).sum
      (fun i => if (getPD s.pd i).exit = 0
        then (getP s.temp i).BurstDuration else 0) := by
    apply Finset.sum_nonneg
    intro i hi
    rw [Finset.mem_range] at hi
    split_ifs with hz
    · have := hunf i hi hz; omega
    · exact le_refl 0
  split_ifs <;> omega

/-- One simulation step on a valid input, after every process has arrived,
either finishes the last process or strictly decreases the measure
(remaining work of unfinished processes plus a penalty when the current
process is already finished). -/
theorem sjfStep_measure_or_done (usePrio : Bool) (ps : List Process)
    (s : SJFState) (hInv : sjfInv ps s) (htA : maxArrival ps < s.time)
    (hnm : noMoreProcesses s.pd = false) :
    noMoreProcesses (sjfStep usePrio ps s).pd = true ∨
      sjfMeasure ps.length (sjfStep usePrio ps s) < sjfMeasure ps.length s := by
  obtain ⟨hlt, hlp, hcur, harr, hble, hunf, hfin, htime⟩ := hInv
  have hstemp := sjfStep_temp usePrio ps s
  have hspd := sjfStep_pd usePrio ps s
  have hwit : s.current < s.temp.length := by rw [hlt]; exact hcur
  have hwip : s.current < s.pd.length := by rw [hlp]; exact hcur
  have harrT : ∀ i, i < ps.length → (getP ps i).ArrivalTime < s.time :=
    fun i hi => lt_of_le_of_lt (le_maxArrival ps _ (getD_mem ps i default hi)) htA
  have harrcur : (getP s.temp s.current).ArrivalTime < s.time := by
    rw [harr s.current hcur]; exact harrT s.current hcur
  have htimepos : 1 ≤ s.time := by
    have := maxArrival_nonneg ps; omega
  have hoff : ∀ i ∈ (Finset.range ps.length).erase s.current,
      (if (getPD (sjfStep usePrio ps s).pd i).exit = 0
        then (getP (sjfStep usePrio ps s).temp i).BurstDuration else 0)
      = (if (getPD s.pd i).exit = 0 then (getP s.temp i).BurstDuration else 0) := by
    intro i hiE
    have hne : i ≠ s.current := Finset.ne_of_mem_erase hiE
    rw [hspd, hstemp, getPD_sjfTick_exit_ne s i hne, getP_sjfTick_ne s i hne]
  have hburstcur : (getP (sjfStep usePrio ps s).temp s.current).BurstDuration
      = (getP s.temp s.current).BurstDuration - 1 := by
    rw [hstemp, getP_sjfTick_cur s hwit, if_pos harrcur]
  have hexitcur : (getPD (sjfStep usePrio ps s).pd s.current).exit
      = (if (getP s.temp s.current).BurstDuration - 1 = 0 then s.time
         else (getPD s.pd s.current).exit) := by
    rw [hspd, getPD_sjfTick_exit_cur s hwip]
    by_cases hz : (getP s.temp s.current).BurstDuration - 1 = 0
    · rw [if_pos ⟨harrcur, hz⟩, if_pos hz]
    · rw [if_neg (fun hc => hz hc.2), if_neg hz]
  have hexitne : ∀ i, i ≠ s.current →
      (getPD (sjfStep usePrio ps s).pd i).exit = (getPD s.pd i).exit := by
    intro i hne
    rw [hspd, getPD_sjfTick_exit_ne s i hne]
  have hsplit : ∀ g : Nat → Int,
      (Finset.range ps.length).sum g
        = g s.current + ((Finset.range ps.length).erase s.current).sum g :=
    fun g => (Finset.add_sum_erase _ g (Finset.mem_range.mpr hcur)).symm
  -- the measure of both states, decomposed at the current index
  have hMs : sjfMeasure ps.length (sjfStep usePrio ps s)
      = (if (getPD (sjfStep usePrio ps s).pd s.current).exit = 0
          then (getP (sjfStep usePrio ps s).temp s.current).BurstDuration else 0)
        + ((Finset.range ps.length).erase s.current).sum
            (fun i => if (getPD s.pd i).exit = 0
              then (getP s.temp i).BurstDuration else 0)
        + (if (getPD (sjfStep usePrio ps s).pd
              (sjfStep usePrio ps s).current).exit = 0 then 0 else 1) := by
    rw [sjfMeasure, hsplit, Finset.sum_congr rfl hoff]
  have hM : sjfMeasure ps.length s
      = (if (getPD s.pd s.current).exit = 0
          then (getP s.temp s.current).BurstDuration else 0)
        + ((Finset.range ps.length).erase s.current).sum
            (fun i => if (getPD s.pd i).exit = 0
              then (getP s.temp i).BurstDuration else 0)
        + (if (getPD s.pd s.current).exit = 0 then 0 else 1) := by
    rw [sjfMeasure, hsplit]
  -- the switch flag and the new current index
  have hfoundex : (sjfScan usePrio ps (sjfTick s)).2 = true →
      (sjfFinished s || (sjfScan usePrio ps (sjfTick s)).2) = true →
      (getPD (sjfStep usePrio ps s).pd (sjfStep usePrio ps s).current).exit = 0 := by
    intro hfound hsw
    rw [sjfStep_current, if_pos hsw, hspd]
    have hc := (sjfScan_found usePrio ps (sjfTick s) hfound).2
    exact (sjfCand_exit usePrio ps (sjfTick s) _ hc).1
  by_cases hcurex : (getPD s.pd s.current).exit = 0
  · -- the current process is unfinished and runs this tick
    have hb1 := hunf s.current hcur hcurex
    by_cases hz : (getP s.temp s.current).BurstDuration - 1 = 0
    · -- it finishes now
      by_cases hrem : noMoreProcesses (sjfStep usePrio ps s).pd = true
      · exact Or.inl hrem
      · right
        rcases noMore_false_exists _ (Bool.eq_false_iff.mpr hrem) with ⟨j, hjlen, hjex⟩
        have hjn : j < ps.length := by
          rw [hspd, sjfTick_pd_length, hlp] at hjlen; exact hjlen
        have hjne : j ≠ s.current := by
          intro hj
          rw [hj, hexitcur, if_pos hz] at hjex
          omega
        have hjex0 : (getPD s.pd j).exit = 0 := by
          rw [hexitne j hjne] at hjex; exact hjex
        have hjex1 : (getPD (sjfTick s).pd j).exit = 0 := by
          rw [getPD_sjfTick_exit_ne s j hjne]; exact hjex0
        have hcand : sjfCand usePrio ps (sjfTick s) j = true := by
          apply sjfCand_of_low
          · exact hjex1
          · rw [sjfTick_time]
            exact le_of_lt (harrT j hjn)
          · rw [sjfTick_current]
            have : (getP (sjfTick s).temp s.current).BurstDuration
                = (getP s.temp s.current).BurstDuration - 1 := by
              rw [getP_sjfTick_cur s hwit, if_pos harrcur]
            rw [this]
            omega
        have hfound : (sjfScan usePrio ps (sjfTick s)).2 = true := by
          by_contra hf
          have := (sjfScan_not_found usePrio ps (sjfTick s)
            (Bool.eq_false_iff.mpr hf)).2 j hjn
          rw [hcand] at this
          cases this
        have hsw : (sjfFinished s || (sjfScan usePrio ps (sjfTick s)).2) = true := by
          rw [hfound, Bool.or_true]
        have hind : (getPD (sjfStep usePrio ps s).pd
            (sjfStep usePrio ps s).current).exit = 0 := hfoundex hfound hsw
        have hex' : (getPD (sjfStep usePrio ps s).pd s.current).exit = s.time := by
          rw [hexitcur, if_pos hz]
        rw [hMs, hM, hind, hex', hcurex]
        split_ifs <;> omega
    · -- it keeps running with one unit less burst
      right
      have hexitcur' : (getPD (sjfStep usePrio ps s).pd s.current).exit = 0 := by
        rw [hexitcur, if_neg hz]; exact hcurex
      have hind : (if (getPD (sjfStep usePrio ps s).pd
          (sjfStep usePrio ps s).current).exit = 0 then (0:Int) else 1) = 0 := by
        rw [sjfStep_current]
        split_ifs with hsw hex
        · rfl
        · exfalso
          apply hex
          have hfound : (sjfScan usePrio ps (sjfTick s)).2 = true := by
            rcases Bool.or_eq_true_iff.mp hsw with hfin1 | hfound
            · exfalso
              rw [sjfFinished, decide_eq_true_eq] at hfin1
              exact hz hfin1.2.2
            · exact hfound
          rw [hspd]
          have hc := (sjfScan_found usePrio ps (sjfTick s) hfound).2
          exact (sjfCand_exit usePrio ps (sjfTick s) _ hc).1
        · rfl
      rw [hMs, hM, hind, hexitcur', hburstcur, hcurex]
      split_ifs <;> omega
  · -- the current process is already finished: switch away from it
    right
    have hbc := hfin s.current hcur hcurex
    have hz : ¬ (getP s.temp s.current).BurstDuration - 1 = 0 := by omega
    have hexitcur' : (getPD (sjfStep usePrio ps s).pd s.current).exit
        = (getPD s.pd s.current).exit := by
      rw [hexitcur, if_neg hz]
    rcases noMore_false_exists _ hnm with ⟨j, hjlen, hjex⟩
    have hjn : j < ps.length := by rw [hlp] at hjlen; exact hjlen
    have hjne : j ≠ s.current := by
      intro hj; rw [hj] at hjex; exact hcurex hjex
    have hjex1 : (getPD (sjfTick s).pd j).exit = 0 := by
      rw [getPD_sjfTick_exit_ne s j hjne]; exact hjex
    have hcand : sjfCand usePrio ps (sjfTick s) j = true := by
      apply sjfCand_of_low
      · exact hjex1
      · rw [sjfTick_time]
        exact le_of_lt (harrT j hjn)
      · rw [sjfTick_current]
        have : (getP (sjfTick s).temp s.current).BurstDuration
            = (getP s.temp s.current).BurstDuration - 1 := by
          rw [getP_sjfTick_cur s hwit, if_pos harrcur]
        rw [this]
        omega
    have hfound : (sjfScan usePrio ps (sjfTick s)).2 = true := by
      by_contra hf
      have := (sjfScan_not_found usePrio ps (sjfTick s)
        (Bool.eq_false_iff.mpr hf)).2 j hjn
      rw [hcand] at this
      cases this
    have hsw : (sjfFinished s || (sjfScan usePrio ps (sjfTick s)).2) = true := by
      rw [hfound, Bool.or_true]
    have hind : (getPD (sjfStep usePrio ps s).pd
        (sjfStep usePrio ps s).current).exit = 0 := hfoundex hfound hsw
    rw [hMs, hM, hind, hexitcur']
    split_ifs <;> omega

theorem sjfRun_done_of_done (usePrio : Bool) (ps : List Process) :
    ∀ (fuel : Nat) (s : SJFState), noMoreProcesses s.pd = true →
      sjfRun usePrio ps fuel s = s := by
  intro fuel
  cases fuel with
  | zero => intro s _; rfl
  | succ fuel => intro s h; rw [sjfRun, if_pos h]

theorem sjfRun_inv (usePrio : Bool) (ps : List Process)
    (ha : ∀ p ∈ ps, 0 ≤ p.ArrivalTime) :
    ∀ (fuel : Nat) (s : SJFState), sjfInv ps s →
      sjfInv ps (sjfRun usePrio ps fuel s) := by
  intro fuel
  induction fuel with
  | zero => intro s h; exact h
  | succ fuel ih =>
    intro s h
    rw [sjfRun]
    split
    · exact h
    · exact ih _ (sjfStep_inv usePrio ps s ha h)

theorem sjfRun_add (usePrio : Bool) (ps : List Process) :
    ∀ (f1 f2 : Nat) (s : SJFState),
      sjfRun usePrio ps (f1 + f2) s
        = sjfRun usePrio ps f2 (sjfRun usePrio ps f1 s) := by
  intro f1
  induction f1 with
  | zero =>
    intro f2 s
    rw [Nat.zero_add]
    rfl
  | succ f1 ih =>
    intro f2 s
    by_cases h : noMoreProcesses s.pd = true
    · rw [sjfRun_done_of_done usePrio ps (f1 + 1) s h]
      rw [show f1 + 1 + f2 = (f1 + f2) + 1 from by omega]
      rw [sjfRun, if_pos h]
      rw [sjfRun_done_of_done usePrio ps f2 s h]
    · rw [show f1 + 1 + f2 = (f1 + f2) + 1 from by omega]
      rw [sjfRun, sjfRun, if_neg h, if_neg h]
      exact ih f2 (sjfStep usePrio ps s)

theorem sjfRun_time_or_done (usePrio : Bool) (ps : List Process) :
    ∀ (fuel : Nat) (s : SJFState),
      noMoreProcesses (sjfRun usePrio ps fuel s).pd = true ∨
        (sjfRun usePrio ps fuel s).time = s.time + fuel := by
  intro fuel
  induction fuel with
  | zero =>
    intro s
    right
    show s.time = s.time + 0
    omega
  | succ fuel ih =>
    intro s
    rw [sjfRun]
    by_cases h : noMoreProcesses s.pd = true
    · rw [if_pos h]; left; exact h
    · rw [if_neg h]
      rcases ih (sjfStep usePrio ps s) with hd | ht
      · left; exact hd
      · right
        rw [ht, sjfStep_time]
        omega

theorem sum_getP_burst (ps : List Process) :
    (Finset.range ps.length).sum (fun i => (getP ps i).BurstDuration)
      = (ps.map Process.BurstDuration).sum := by
  induction ps with
  | nil => rfl
  | cons p ps ih =>
    show (Finset.range (ps.length + 1)).sum
        (fun i => (getP (p :: ps) i).BurstDuration) = _
    rw [Finset.sum_range_succ']
    have hshift : ∀ i, (getP (p :: ps) (i + 1)).BurstDuration
        = (getP ps i).BurstDuration := fun i => rfl
    simp only [hshift]
    rw [ih]
    show (ps.map Process.BurstDuration).sum + p.BurstDuration = _
    rw [List.map_cons, List.sum_cons]
    ring

theorem int_sum_le_toNat_sum (l : List Int) :
    l.sum ≤ (((l.map Int.toNat).sum : Nat) : Int) := by
  induction l with
  | nil => simp
  | cons a l ih =>
    rw [List.sum_cons, List.map_cons, List.sum_cons]
    have h1 := Int.self_le_toNat a
    omega

/-- Strong induction on the measure: once every process has arrived, the SJF
loop finishes within measure + 1 further iterations. -/
theorem sjfRun_done_of_measure (usePrio : Bool) (ps : List Process)
    (ha : ∀ p ∈ ps, 0 ≤ p.ArrivalTime) :
    ∀ (m fuel : Nat) (s : SJFState), sjfInv ps s → maxArrival ps < s.time →
      sjfMeasure ps.length s ≤ m → m < fuel →
      noMoreProcesses (sjfRun usePrio ps fuel s).pd = true := by
  intro m
  induction m with
  | zero =>
    intro fuel s hInv htA hm hf
    rcases Nat.exists_eq_succ_of_ne_zero (by omega : fuel ≠ 0) with ⟨f, rfl⟩
    rw [sjfRun]
    by_cases hd : noMoreProcesses s.pd = true
    · rw [if_pos hd]; exact hd
    · rw [if_neg hd]
      rcases sjfStep_measure_or_done usePrio ps s hInv htA
        (Bool.eq_false_iff.mpr hd) with hdone | hlt
      · rw [sjfRun_done_of_done usePrio ps f _ hdone]; exact hdone
      · exfalso
        have hnn := sjfMeasure_nonneg ps (sjfStep usePrio ps s)
          (sjfStep_inv usePrio ps s ha hInv)
        omega
  | succ m ih =>
    intro fuel s hInv htA hm hf
    rcases Nat.exists_eq_succ_of_ne_zero (by omega : fuel ≠ 0) with ⟨f, rfl⟩
    rw [sjfRun]
    by_cases hd : noMoreProcesses s.pd = true
    · rw [if_pos hd]; exact hd
    · rw [if_neg hd]
      rcases sjfStep_measure_or_done usePrio ps s hInv htA
        (Bool.eq_false_iff.mpr hd) with hdone | hlt
      · rw [sjfRun_done_of_done usePrio ps f _ hdone]; exact hdone
      · apply ih f (sjfStep usePrio ps s)
          (sjfStep_inv usePrio ps s ha hInv)
        · rw [sjfStep_time]; omega
        · omega
        · omega

theorem sjfInit_inv (ps : List Process) (hne : ps ≠ [])
    (hb : ∀ p ∈ ps, 0 < p.BurstDuration) :
    sjfInv ps (sjfInit ps) := by
  have hn : 0 < ps.length := List.length_pos.mpr hne
  have hexit0 : ∀ i, i < ps.length → (getPD (sjfInit ps).pd i).exit = 0 := by
    intro i hi
    show ((List.replicate ps.length (⟨0, 0, 0⟩ : ProcessData)).getD i
        default).exit = 0
    rw [getD_replicate _ _ _ _ hi]
  refine ⟨rfl, by simp [sjfInit], hn, fun i _ => rfl, fun i _ => le_refl _,
    ?_, ?_, le_refl 0⟩
  · intro i hi _
    show 1 ≤ (getP ps i).BurstDuration
    have hx : 0 < (getP ps i).BurstDuration := hb _ (getD_mem ps i default hi)
    omega
  · intro i hi hex
    exact absurd (hexit0 i hi) hex

/-- The `SJFSchedule`/`SJFPrioritySchedule` loop terminates within `sjfFuel`
iterations on every non-empty input with positive bursts and non-negative
arrivals. -/
theorem sjf_loop_terminates (usePrio : Bool) (ps : List Process)
    (hne : ps ≠ []) (hb : ∀ p ∈ ps, 0 < p.BurstDuration)
    (ha : ∀ p ∈ ps, 0 ≤ p.ArrivalTime) :
    noMoreProcesses (sjfRun usePrio ps (sjfFuel ps) (sjfInit ps)).pd = true := by
  have hfuel : sjfFuel ps
      = ((maxArrival ps).toNat + 1)
        + (ps.foldl (fun (a : Nat) (p : Process) => a + p.BurstDuration.toNat) 0
            + 2) := by
    rw [sjfFuel, maxArrival]
    omega
  rw [hfuel, sjfRun_add]
  set s1 := sjfRun usePrio ps ((maxArrival ps).toNat + 1) (sjfInit ps) with hs1
  have hinv1 : sjfInv ps s1 :=
    sjfRun_inv usePrio ps ha _ _ (sjfInit_inv ps hne hb)
  rcases sjfRun_time_or_done usePrio ps ((maxArrival ps).toNat + 1)
    (sjfInit ps) with hd | ht
  · rw [← hs1] at hd
    rw [sjfRun_done_of_done usePrio ps _ s1 hd]
    exact hd
  · have htA : maxArrival ps < s1.time := by
      rw [← hs1] at ht
      rw [ht]
      show maxArrival ps < (sjfInit ps).time + ((maxArrival ps).toNat + 1)
      have h1 := Int.self_le_toNat (maxArrival ps)
      show maxArrival ps < 0 + ((maxArrival ps).toNat + 1)
      omega
    have hmb : sjfMeasure ps.length s1
        ≤ (ps.foldl (fun (a : Nat) (p : Process) => a + p.BurstDuration.toNat) 0
            + 1 : Nat) := by
      obtain ⟨_, _, _, _, hble, hunf, _, _⟩ := hinv1
      rw [sjfMeasure]
      have hsum : (Finset.range ps.length).sum
          (fun i => if (getPD s1.pd i).exit = 0
            then (getP s1.temp i).BurstDuration else 0)
          ≤ (Finset.range ps.length).sum
              (fun i => (getP ps i).BurstDuration) := by
        apply Finset.sum_le_sum
        intro i hi
        rw [Finset.mem_range] at hi
        split_ifs with hz
        · exact hble i hi
        · have hx : 0 < (getP ps i).BurstDuration :=
            hb _ (getD_mem ps i default hi)
          show (0 : Int) ≤ (getP ps i).BurstDuration
          omega
      rw [foldl_add_toNat ps 0]
      have h2 := int_sum_le_toNat_sum (ps.map Process.BurstDuration)
      rw [sum_getP_burst] at hsum
      split_ifs <;> omega
    exact sjfRun_done_of_measure usePrio ps ha _ _ s1 hinv1 htA hmb (by omega)

/-- The round-robin sweep ends with every remaining time exactly 0 on inputs
with positive bursts. -/
theorem rr_loop_terminates (ps : List Process)
    (hb : ∀ p ∈ ps, 0 < p.BurstDuration) :
    (rrLoop ps (rrFuel ps) (rrInit ps)).timeLeft.all (fun t => t == 0)
      = true := by
  have hnn : ∀ t ∈ (rrLoop ps (rrFuel ps) (rrInit ps)).timeLeft, 0 ≤ t := by
    apply @rrLoop_pres (fun st => ∀ t ∈ st.timeLeft, 0 ≤ t) ps
      (fun sb i h => rrVisit_tl_nonneg ps sb i h)
    intro t ht
    rcases List.mem_map.mp ht with ⟨p, hp, rfl⟩
    exact le_of_lt (hb p hp)
  have hstop := rrLoop_final_stopped ps
  rw [List.all_eq_true]
  intro t ht
  have h1 := hnn t ht
  have h2 := hstop t ht
  simp only [beq_iff_eq]
  omega

/-! ## Claim C7

On every non-empty input with strictly positive bursts (and the data model's
non-negative arrivals), the simulation loops of `SJFSchedule`,
`SJFPrioritySchedule` and `RRSchedule` terminate: the SJF loops reach a state
where every process has a nonzero exit time within `sjfFuel` iterations, and
the round-robin sweep reaches all-zero remaining times within `rrFuel`
passes. -/

/-- Claim C7: all three simulation loops terminate on valid inputs — the SJF
loop guard `noMoreProcesses` (every exit time nonzero) becomes true within
the allotted fuel, and every round-robin remaining time reaches exactly 0. -/
theorem C7_termination (ps : List Process) (hne : ps ≠ [])
    (hb : ∀ p ∈ ps, 0 < p.BurstDuration)
    (ha : ∀ p ∈ ps, 0 ≤ p.ArrivalTime) :
    noMoreProcesses (sjfRun false ps (sjfFuel ps) (sjfInit ps)).pd = true ∧
    noMoreProcesses (sjfRun true ps (sjfFuel ps) (sjfInit ps)).pd = true ∧
    (rrLoop (rrSort ps) (rrFuel (rrSort ps))
        (rrInit (rrSort ps))).timeLeft.all (fun t => t == 0) = true := by
  have hmem : ∀ p : Process, p ∈ rrSort ps ↔ p ∈ ps :=
    fun p => (List.perm_insertionSort arrivalLE ps).mem_iff
  refine ⟨sjf_loop_terminates false ps hne hb ha,
          sjf_loop_terminates true ps hne hb ha,
          rr_loop_terminates (rrSort ps) ?_⟩
  intro p hp
  exact hb p ((hmem p).mp hp)

/-- Witness for C7 at a concrete input. -/
theorem C7_witness :
    noMoreProcesses (sjfRun false [⟨1, 0, 5, 0⟩, ⟨2, 1, 3, 0⟩, ⟨3, 2, 1, 0⟩]
        (sjfFuel [⟨1, 0, 5, 0⟩, ⟨2, 1, 3, 0⟩, ⟨3, 2, 1, 0⟩])
        (sjfInit [⟨1, 0, 5, 0⟩, ⟨2, 1, 3, 0⟩, ⟨3, 2, 1, 0⟩])).pd = true ∧
    noMoreProcesses (sjfRun true [⟨1, 0, 5, 0⟩, ⟨2, 1, 3, 0⟩, ⟨3, 2, 1, 0⟩]
        (sjfFuel [⟨1, 0, 5, 0⟩, ⟨2, 1, 3, 0⟩, ⟨3, 2, 1, 0⟩])
        (sjfInit [⟨1, 0, 5, 0⟩, ⟨2, 1, 3, 0⟩, ⟨3, 2, 1, 0⟩])).pd = true ∧
    (rrLoop (rrSort [⟨1, 0, 5, 0⟩, ⟨2, 1, 3, 0⟩, ⟨3, 2, 1, 0⟩])
        (rrFuel (rrSort [⟨1, 0, 5, 0⟩, ⟨2, 1, 3, 0⟩, ⟨3, 2, 1, 0⟩]))
        (rrInit (rrSort [⟨1, 0, 5, 0⟩, ⟨2, 1, 3, 0⟩, ⟨3, 2, 1, 0⟩]))).timeLeft.all
      (fun t => t == 0) = true :=
  C7_termination [⟨1, 0, 5, 0⟩, ⟨2, 1, 3, 0⟩, ⟨3, 2, 1, 0⟩] (by decide)
    (by intro p hp; fin_cases hp <;> decide)
    (by intro p hp; fin_cases hp <;> decide)

/-! ## Claim C6: SJF versus SJF with priority tie-break -/

theorem scanFold_congr (P Q : Nat → Bool) :
    ∀ (l : List Nat) (acc : Nat × Bool), (∀ i ∈ l, P i = Q i) →
      l.foldl (fun acc i => if P i then (i, true) else acc) acc
        = l.foldl (fun acc i => if Q i then (i, true) else acc) acc := by
  intro l
  induction l with
  | nil => intro acc _; rfl
  | cons i l ih =>
    intro acc h
    rw [List.foldl_cons, List.foldl_cons]
    rw [show (if P i then (i, true) else acc) = (if Q i then (i, true) else acc)
      from by rw [h i (List.mem_cons_self i l)]]
    exact ih _ (fun j hj => h j (List.mem_cons_of_mem i hj))

theorem sjfCand_eq_of_noTie (ps : List Process) (s : SJFState)
    (h : hasScanTie ps s = false) :
    ∀ i, i < ps.length →
      sjfCand true ps (sjfTick s) i = sjfCand false ps (sjfTick s) i := by
  intro i hi
  have hspec : ¬ (¬ i = (sjfTick s).current ∧
      (getP ps i).ArrivalTime ≤ (sjfTick s).time ∧
      (getPD (sjfTick s).pd i).exit = 0 ∧
      (getP (sjfTick s).temp i).BurstDuration
        = (getP (sjfTick s).temp (sjfTick s).current).BurstDuration) := by
    intro hcon
    rw [hasScanTie] at h
    rw [List.any_eq_false] at h
    have := h i (List.mem_range.mpr hi)
    apply this
    simp only [Bool.and_eq_true, Bool.not_eq_true', beq_eq_false_iff_ne,
      decide_eq_true_eq, beq_iff_eq]
    tauto
  rw [sjfCand, sjfCand]
  by_cases hg : ((getPD (sjfTick s).pd i).exit = 0 ∧
      (getP ps i).ArrivalTime ≤ (sjfTick s).time)
  · have hd3 : ((getP (sjfTick s).temp i).BurstDuration
        == (getP (sjfTick s).temp (sjfTick s).current).BurstDuration &&
        decide ((getP (sjfTick s).temp (sjfTick s).current).Priority
          < (getP (sjfTick s).temp i).Priority)) = false := by
      by_cases hic : i = (sjfTick s).current
      · rw [hic]
        simp
      · have hne : ¬ (getP (sjfTick s).temp i).BurstDuration
            = (getP (sjfTick s).temp (sjfTick s).current).BurstDuration := by
          intro hcon
          exact hspec ⟨hic, hg.2, hg.1, hcon⟩
        rw [beq_eq_false_iff_ne.mpr hne, Bool.false_and]
    rw [hd3]
    simp
  · rw [decide_eq_false hg, Bool.false_and, Bool.false_and]

theorem sjfStep_eq_of_noTie (ps : List Process) (s : SJFState)
    (h : hasScanTie ps s = false) :
    sjfStep true ps s = sjfStep false ps s := by
  have hscan : sjfScan true ps (sjfTick s) = sjfScan false ps (sjfTick s) := by
    rw [sjfScan, sjfScan]
    apply scanFold_congr
    intro i hi
    exact sjfCand_eq_of_noTie ps s h i (List.mem_range.mp hi)
  rw [sjfStep_def, sjfStep_def, hscan]

theorem sjfRun_eq_of_noTies (ps : List Process) :
    ∀ (fuel : Nat) (s : SJFState),
      (∀ s' ∈ sjfTraj false ps fuel s, hasScanTie ps s' = false) →
      sjfRun true ps fuel s = sjfRun false ps fuel s := by
  intro fuel
  induction fuel with
  | zero => intro s _; rfl
  | succ fuel ih =>
    intro s h
    rw [sjfRun, sjfRun]
    by_cases hd : noMoreProcesses s.pd = true
    · rw [if_pos hd, if_pos hd]
    · rw [if_neg hd, if_neg hd]
      have hs : hasScanTie ps s = false := by
        apply h
        rw [sjfTraj, if_neg hd]
        exact List.mem_cons_self _ _
      rw [sjfStep_eq_of_noTie ps s hs]
      apply ih
      intro s' hs'
      apply h
      rw [sjfTraj, if_neg hd]
      exact List.mem_cons_of_mem _ hs'

/-- Claim C6, counterexample: on the input P1(arrival=10,burst=3,prio=0),
P2(arrival=0,burst=1,prio=0), P3(arrival=0,burst=3,prio=5), no two *arrived*
unfinished processes ever have equal remaining bursts — neither at any tick
start nor at any candidate scan, in either scheduler's own simulation — yet
the two schedulers report different results (the priority tie-break fires
against the not-yet-arrived current process P1).  `SJFSchedule` reports waits
(0,0,1) and `SJFPrioritySchedule` reports waits (0,1,1). -/
theorem C6_counterexample :
    ((sjfTraj false [⟨1, 10, 3, 0⟩, ⟨2, 0, 1, 0⟩, ⟨3, 0, 3, 5⟩]
        (sjfFuel [⟨1, 10, 3, 0⟩, ⟨2, 0, 1, 0⟩, ⟨3, 0, 3, 5⟩])
        (sjfInit [⟨1, 10, 3, 0⟩, ⟨2, 0, 1, 0⟩, ⟨3, 0, 3, 5⟩])).all
      (fun s' => !(hasArrivedTie [⟨1, 10, 3, 0⟩, ⟨2, 0, 1, 0⟩, ⟨3, 0, 3, 5⟩] s')
        && !(hasArrivedTie [⟨1, 10, 3, 0⟩, ⟨2, 0, 1, 0⟩, ⟨3, 0, 3, 5⟩]
              (sjfTick s'))) = true) ∧
    ((sjfTraj true [⟨1, 10, 3, 0⟩, ⟨2, 0, 1, 0⟩, ⟨3, 0, 3, 5⟩]
        (sjfFuel [⟨1, 10, 3, 0⟩, ⟨2, 0, 1, 0⟩, ⟨3, 0, 3, 5⟩])
        (sjfInit [⟨1, 10, 3, 0⟩, ⟨2, 0, 1, 0⟩, ⟨3, 0, 3, 5⟩])).all
      (fun s' => !(hasArrivedTie [⟨1, 10, 3, 0⟩, ⟨2, 0, 1, 0⟩, ⟨3, 0, 3, 5⟩] s')
        && !(hasArrivedTie [⟨1, 10, 3, 0⟩, ⟨2, 0, 1, 0⟩, ⟨3, 0, 3, 5⟩]
              (sjfTick s'))) = true) ∧
    (SJFSchedule [⟨1, 10, 3, 0⟩, ⟨2, 0, 1, 0⟩, ⟨3, 0, 3, 5⟩]).schedule
      ≠ (SJFPrioritySchedule [⟨1, 10, 3, 0⟩, ⟨2, 0, 1, 0⟩, ⟨3, 0, 3, 5⟩]).schedule ∧
    (SJFSchedule [⟨1, 10, 3, 0⟩, ⟨2, 0, 1, 0⟩, ⟨3, 0, 3, 5⟩]).gantt
      ≠ (SJFPrioritySchedule [⟨1, 10, 3, 0⟩, ⟨2, 0, 1, 0⟩, ⟨3, 0, 3, 5⟩]).gantt :=
  ⟨by decide, by decide, by decide, by decide⟩

/-- Claim C6 as amended: if at every candidate scan of `SJFSchedule`'s
simulation no arrived, unfinished process other than the current one has
remaining burst equal to the current process's remaining burst — the current
process itself counted even when it has not yet arrived — then
`SJFPrioritySchedule` produces exactly the same result (Gantt slices,
per-process rows, and aggregate statistics) as `SJFSchedule`; the extra
equal-burst/higher-priority switch condition is the only behavioral
difference between the two. -/
theorem C6_sjf_priority_equiv (ps : List Process)
    (h : ∀ s' ∈ sjfTraj false ps (sjfFuel ps) (sjfInit ps),
      hasScanTie ps s' = false) :
    SJFPrioritySchedule ps = SJFSchedule ps := by
  rw [SJFPrioritySchedule, SJFSchedule,
    sjfRun_eq_of_noTies ps (sjfFuel ps) (sjfInit ps) h]

/-- Witness for C6: on the spec's three-process scenario there are no
equal-remaining-burst ties at any scan, and the two schedulers agree. -/
theorem C6_witness :
    SJFPrioritySchedule [⟨1, 0, 5, 0⟩, ⟨2, 1, 3, 0⟩, ⟨3, 2, 1, 0⟩]
      = SJFSchedule [⟨1, 0, 5, 0⟩, ⟨2, 1, 3, 0⟩, ⟨3, 2, 1, 0⟩] :=
  C6_sjf_priority_equiv [⟨1, 0, 5, 0⟩, ⟨2, 1, 3, 0⟩, ⟨3, 2, 1, 0⟩]
    (by decide)

/-! ## Claim C10

No scheduler validates its input.  On the empty list each returns normally
with `count = 0` (so the Go code divides by zero and reports NaN averages);
on a list containing a process with non-positive burst, both shortest-job
loops never finish: that process's remaining burst only ever decreases, so
it is never exactly 1 at a tick, the `== 0` exit test never fires for it,
and `noMoreProcesses` stays false forever. -/

theorem noMore_false_of_exit (pd : List ProcessData) (i : Nat)
    (h : i < pd.length) (he : (getPD pd i).exit = 0) :
    noMoreProcesses pd = false := by
  unfold noMoreProcesses
  rw [List.all_eq_false]
  refine ⟨getPD pd i, getD_mem pd i default h, ?_⟩
  simp [he]

/-- Preservation of the stuck configuration at index `i`: unfinished, with
non-positive remaining burst.  The decrement keeps the burst non-positive and
the `BurstDuration - 1 = 0` exit test can never fire, under either scan flag. -/
theorem sjfStep_zero_burst (usePrio : Bool) (ps : List Process) (s : SJFState)
    (i : Nat)
    (hpd : i < s.pd.length) (htemp : s.pd.length ≤ s.temp.length)
    (hexit : (getPD s.pd i).exit = 0)
    (hburst : (getP s.temp i).BurstDuration ≤ 0) :
    i < (sjfStep usePrio ps s).pd.length ∧
    (sjfStep usePrio ps s).pd.length ≤ (sjfStep usePrio ps s).temp.length ∧
    (getPD (sjfStep usePrio ps s).pd i).exit = 0 ∧
    (getP (sjfStep usePrio ps s).temp i).BurstDuration ≤ 0 := by
  have hpd1 : (sjfStep usePrio ps s).pd = (sjfTick s).pd := by
    rw [sjfStep_def]; split <;> rfl
  have htemp1 : (sjfStep usePrio ps s).temp = (sjfTick s).temp := by
    rw [sjfStep_def]; split <;> rfl
  have htlen : (sjfTick s).temp.length = s.temp.length := length_mapI _ _ _
  have hplen : (sjfTick s).pd.length = s.pd.length := length_mapI _ _ _
  have hit : i < s.temp.length := lt_of_lt_of_le hpd htemp
  have htemp0 : getP (sjfTick s).temp i
      = (if (getP s.temp i).ArrivalTime < s.time ∧ i = s.current then
          { getP s.temp i with BurstDuration := (getP s.temp i).BurstDuration - 1 }
        else getP s.temp i) := by
    unfold sjfTick getP
    rw [getD_mapI _ 0 i s.temp default hit, Nat.zero_add]
  have hpd0 : getPD (sjfTick s).pd i
      = (if (getP s.temp i).ArrivalTime < s.time then
          if i ≠ s.current ∧ (getPD s.pd i).exit = 0 then
            { getPD s.pd i with waitingTime := (getPD s.pd i).waitingTime + 1 }
          else if i = s.current ∧ (getP s.temp i).BurstDuration - 1 = 0 then
            { getPD s.pd i with exit := s.time }
          else getPD s.pd i
        else getPD s.pd i) := by
    unfold sjfTick getPD
    rw [getD_mapI _ 0 i s.pd default hpd, Nat.zero_add]
  refine ⟨?_, ?_, ?_, ?_⟩
  · rw [hpd1, hplen]; exact hpd
  · rw [hpd1, htemp1, hplen, htlen]; exact htemp
  · rw [hpd1, hpd0]
    split_ifs with h1 h2 h3
    · exact hexit
    · rcases h3 with ⟨_, h3⟩; omega
    · exact hexit
    · exact hexit
  · rw [htemp1, htemp0]
    split_ifs with h1
    · simp only []; omega
    · exact hburst

/-- The stuck configuration holds at every iterate of either shortest-job
step (plain or priority) on any input list containing a process with
non-positive burst, so the loop guard never becomes true. -/
theorem sjf_zero_burst_never_done (usePrio : Bool) (ps : List Process)
    (i : Nat) (hi : i < ps.length) (hb : (getP ps i).BurstDuration ≤ 0) :
    ∀ k : Nat,
      noMoreProcesses (((sjfStep usePrio ps)^[k] (sjfInit ps)).pd) = false := by
  suffices h : ∀ m : Nat,
      i < ((sjfStep usePrio ps)^[m] (sjfInit ps)).pd.length ∧
      ((sjfStep usePrio ps)^[m] (sjfInit ps)).pd.length
        ≤ ((sjfStep usePrio ps)^[m] (sjfInit ps)).temp.length ∧
      (getPD ((sjfStep usePrio ps)^[m] (sjfInit ps)).pd i).exit = 0 ∧
      (getP ((sjfStep usePrio ps)^[m] (sjfInit ps)).temp i).BurstDuration ≤ 0 by
    intro k
    rcases h k with ⟨h1, _, h3, _⟩
    exact noMore_false_of_exit _ i h1 h3
  intro m
  induction m with
  | zero =>
    refine ⟨?_, ?_, ?_, ?_⟩
    · show i < (List.replicate ps.length (⟨0, 0, 0⟩ : ProcessData)).length
      simpa using hi
    · show (List.replicate ps.length (⟨0, 0, 0⟩ : ProcessData)).length ≤ ps.length
      simp
    · show (getPD (List.replicate ps.length (⟨0, 0, 0⟩ : ProcessData)) i).exit = 0
      unfold getPD
      rw [getD_replicate ps.length _ _ i hi]
    · exact hb
  | succ m ih =>
    rw [Function.iterate_succ_apply']
    exact sjfStep_zero_burst usePrio ps _ i ih.1 ih.2.1 ih.2.2.1 ih.2.2.2

/-- Claim C10, counterexample: all four schedulers return normally on the
empty list, with `count = 0` (the Go code then divides by this zero count),
and both `SJFSchedule` and `SJFPrioritySchedule` on a single zero-burst
process are still running after 50 iterations instead of failing fast. -/
theorem C10_counterexample :
    (FCFSSchedule []).count = 0 ∧ (FCFSSchedule []).schedule = [] ∧
    (SJFSchedule []).count = 0 ∧ (SJFPrioritySchedule []).count = 0 ∧
    (RRSchedule []).count = 0 ∧
    noMoreProcesses
        (((sjfStep false [⟨1, 0, 0, 0⟩])^[50] (sjfInit [⟨1, 0, 0, 0⟩])).pd)
      = false ∧
    noMoreProcesses
        (((sjfStep true [⟨1, 0, 0, 0⟩])^[50] (sjfInit [⟨1, 0, 0, 0⟩])).pd)
      = false := by
  refine ⟨rfl, by decide, rfl, rfl, rfl, by decide, by decide⟩

/-- Claim C10 as amended: the schedulers perform no input validation.  On an
empty process list every scheduler returns a normal result with `count = 0`
(so the Go float averages are computed as 0/0), and on any process list
containing a process with non-positive burst the loop guard of `SJFSchedule`
(`usePrio = false`) and of `SJFPrioritySchedule` (`usePrio = true`) never
becomes true at any iterate of the loop body: both loops run forever instead
of failing fast. -/
theorem C10_no_validation :
    ((FCFSSchedule []).count = 0 ∧ (FCFSSchedule []).schedule = []
      ∧ (FCFSSchedule []).gantt = []) ∧
    ((SJFSchedule []).count = 0 ∧ (SJFPrioritySchedule []).count = 0
      ∧ (RRSchedule []).count = 0) ∧
    (∀ (usePrio : Bool) (ps : List Process) (i : Nat),
      i < ps.length → (getP ps i).BurstDuration ≤ 0 →
      ∀ k : Nat,
        noMoreProcesses (((sjfStep usePrio ps)^[k] (sjfInit ps)).pd) = false) :=
  ⟨⟨rfl, by decide, by decide⟩, ⟨rfl, rfl, rfl⟩,
    fun usePrio ps i hi hb => sjf_zero_burst_never_done usePrio ps i hi hb⟩

/-- Witness for C10: the divergence statement instantiated at
`SJFPrioritySchedule`'s loop body on a single zero-burst process, 50
iterations in. -/
theorem C10_witness :
    (0 : Nat) < ([⟨1, 0, 0, 0⟩] : List Process).length ∧
    (getP [⟨1, 0, 0, 0⟩] 0).BurstDuration ≤ 0 ∧
    noMoreProcesses
        (((sjfStep true [⟨1, 0, 0, 0⟩])^[50] (sjfInit [⟨1, 0, 0, 0⟩])).pd)
      = false :=
  ⟨by decide, by decide,
    C10_no_validation.2.2 true [⟨1, 0, 0, 0⟩] 0 (by decide) (by decide) 50⟩
